import Mathlib

/-!
A shallow embedding of the godb engine (Go sources: `types/types.go`,
`storage/pager.go`, `storage/table.go`, the B-Tree index layer, the
lock and transaction managers, and the statement executors), together
with theorems settling the frozen claims about the specification.

Modelling conventions:
* machine integers are `Nat`/`Int`, reduced modulo `2^w` exactly where
  the Go code performs a conversion (`uint16(..)`, `uint32(..)`, `uint64(..)`);
* byte strings (`[]byte`, Go `string`) are `List Nat` with entries < 256;
* `float64` values are represented by their IEEE-754 binary64 bit
  pattern (a `Nat` below `2^64`); the Go numeric conversions between
  `float64` and integers are modelled bit-exactly below;
* fallible Go functions returning `error` are modelled with `Except String`;
* in-place mutation through pointers becomes explicit state passing.
-/

set_option maxRecDepth 4000

namespace GoDB

/-- the error of a fallible result, if any (used to state theorems
about results whose success payload carries functions). -/
def exceptErr {ε α : Type} : Except ε α → Option ε
  | .error e => some e
  | .ok _ => none

instance {ε α : Type} [DecidableEq ε] [DecidableEq α] : DecidableEq (Except ε α) := fun
  | .ok a, .ok b =>
    if h : a = b then .isTrue (by rw [h])
    else .isFalse (by intro hc; cases hc; exact h rfl)
  | .ok _, .error _ => .isFalse (by intro hc; cases hc)
  | .error _, .ok _ => .isFalse (by intro hc; cases hc)
  | .error e, .error f =>
    if h : e = f then .isTrue (by rw [h])
    else .isFalse (by intro hc; cases hc; exact h rfl)

/-! ## Byte-level helpers (`encoding/binary`, little endian)

`readByte l i` models an in-bounds Go slice read `l[i]` (the Go code
panics out of bounds; every use below is in bounds for well-formed
records, and the default 0 is only a total-function completion). -/

def readByte (l : List Nat) (i : Nat) : Nat := l.getD i 0

def readU16 (l : List Nat) (i : Nat) : Nat :=
  readByte l i + 2 ^ 8 * readByte l (i + 1)

def readU32 (l : List Nat) (i : Nat) : Nat :=
  readByte l i + 2 ^ 8 * readByte l (i + 1) + 2 ^ 16 * readByte l (i + 2) +
    2 ^ 24 * readByte l (i + 3)

def readU64 (l : List Nat) (i : Nat) : Nat :=
  readByte l i + 2 ^ 8 * readByte l (i + 1) + 2 ^ 16 * readByte l (i + 2) +
    2 ^ 24 * readByte l (i + 3) + 2 ^ 32 * readByte l (i + 4) +
    2 ^ 40 * readByte l (i + 5) + 2 ^ 48 * readByte l (i + 6) +
    2 ^ 56 * readByte l (i + 7)

/-- `binary.LittleEndian.PutUint16` of `n % 2^16`. -/
def u16le (n : Nat) : List Nat := [n % 2 ^ 8, n / 2 ^ 8 % 2 ^ 8]

/-- `binary.LittleEndian.PutUint32` of `n % 2^32`. -/
def u32le (n : Nat) : List Nat :=
  [n % 2 ^ 8, n / 2 ^ 8 % 2 ^ 8, n / 2 ^ 16 % 2 ^ 8, n / 2 ^ 24 % 2 ^ 8]

/-- `binary.LittleEndian.PutUint64` of `n % 2^64`. -/
def u64le (n : Nat) : List Nat :=
  [n % 2 ^ 8, n / 2 ^ 8 % 2 ^ 8, n / 2 ^ 16 % 2 ^ 8, n / 2 ^ 24 % 2 ^ 8,
   n / 2 ^ 32 % 2 ^ 8, n / 2 ^ 40 % 2 ^ 8, n / 2 ^ 48 % 2 ^ 8, n / 2 ^ 56 % 2 ^ 8]

/-! ## Go numeric conversions -/

/-- Go `uint64(v)` for `v : int64`: two's-complement reinterpretation. -/
def toUInt64 (v : Int) : Nat := (v % (2 ^ 64 : Int)).toNat

/-- Go `int64(n)` for `n : uint64`: two's-complement reinterpretation. -/
def toInt64 (n : Nat) : Int :=
  if n < 2 ^ 63 then (n : Int) else (n : Int) - 2 ^ 64

/-! IEEE-754 binary64 field accessors on a bit pattern. -/

def f64sign (bits : Nat) : Nat := bits / 2 ^ 63 % 2

def f64exp (bits : Nat) : Nat := bits / 2 ^ 52 % 2 ^ 11

def f64mant (bits : Nat) : Nat := bits % 2 ^ 52

/-- magnitude bits (everything but the sign). -/
def f64mag (bits : Nat) : Nat := bits % 2 ^ 63

def f64isNaN (bits : Nat) : Bool := f64mag bits > 2047 * 2 ^ 52

/-- `⌊|v|⌋` for the finite float64 with bit pattern `bits`:
the significand `2^52 + m` scaled by `2^(e-1075)` and truncated. -/
def f64truncAbs (bits : Nat) : Nat :=
  let e := f64exp bits
  let m := f64mant bits
  if e = 0 then 0
  else if e ≥ 1075 then (2 ^ 52 + m) * 2 ^ (e - 1075)
  else (2 ^ 52 + m) / 2 ^ (1075 - e)

/-- Go `uint64(f)` for `f : float64`: the fraction is discarded
(truncation toward zero); when the truncated value is not representable
in `uint64` (negative, too large, infinite or NaN) the Go specification
leaves the result implementation-dependent, and amd64 produces
`2^63` (`0x8000000000000000`), which we adopt.  No theorem below
depends on the implementation-dependent branch. -/
def goFloat64ToUint64 (bits : Nat) : Nat :=
  if f64exp bits = 2047 then 2 ^ 63
  else if f64sign bits = 1 then (if f64truncAbs bits = 0 then 0 else 2 ^ 63)
  else if f64truncAbs bits ≥ 2 ^ 64 then 2 ^ 63
  else f64truncAbs bits

/-- `⌊log₂ n⌋` by structural recursion on a fuel bound (so that the
kernel can evaluate it; `Nat.log2` is well-founded recursion). -/
def log2fuel : Nat → Nat → Nat
  | 0, _ => 0
  | fuel + 1, n => if n ≥ 2 then log2fuel fuel (n / 2) + 1 else 0

def natLog2 (n : Nat) : Nat := log2fuel n n

/-- Go `float64(n)` for `n : uint64`: round to nearest, ties to even.
Returns the bit pattern of the resulting float64. -/
def goUint64ToFloat64 (n : Nat) : Nat :=
  if n = 0 then 0
  else
    let k := natLog2 n
    if k ≤ 52 then
      (k + 1023) * 2 ^ 52 + (n * 2 ^ (52 - k) - 2 ^ 52)
    else
      let shift := k - 52
      let q := n / 2 ^ shift
      let r := n % 2 ^ shift
      let q1 := if 2 * r > 2 ^ shift || (2 * r = 2 ^ shift && q % 2 = 1) then q + 1 else q
      if q1 = 2 ^ 53 then (k + 1 + 1023) * 2 ^ 52
      else (k + 1023) * 2 ^ 52 + (q1 - 2 ^ 52)

/-- Go `float64(v)` for `v : int64` (used by `evalSQLVal` for the
INT-literal-into-FLOAT-column coercion). -/
def goInt64ToFloat64 (v : Int) : Nat :=
  if v ≥ 0 then goUint64ToFloat64 v.toNat
  else 2 ^ 63 + goUint64ToFloat64 (-v).toNat

/-! ## Value codec (`types/types.go`) -/

/-- `types.DataType`. -/
inductive DataType
  | int
  | text
  | boolean
  | float
  | date
deriving DecidableEq, Repr

/-- the byte written for `byte(v.Type)` (iota order in the source). -/
def DataType.tag : DataType → Nat
  | .int => 0
  | .text => 1
  | .boolean => 2
  | .float => 3
  | .date => 4

/-- `DataType.String()`. -/
def DataType.str : DataType → String
  | .int => "INT"
  | .text => "TEXT"
  | .boolean => "BOOLEAN"
  | .float => "FLOAT"
  | .date => "DATE"

/-- `types.Value`: a tagged union.  The `interface{}` payload is made
explicit per kind; a `time.Time` date is represented by its Unix
seconds (the only component the codec stores). -/
inductive Value
  | intV (v : Int)
  | textV (s : List Nat)
  | boolV (b : Bool)
  | floatV (bits : Nat)
  | dateV (unix : Int)
deriving DecidableEq, Repr

def Value.kind : Value → DataType
  | .intV _ => .int
  | .textV _ => .text
  | .boolV _ => .boolean
  | .floatV _ => .float
  | .dateV _ => .date

/-- `Value.Serialize`.  The Go version returns `(bytes, error)` with the
error branch reachable only for a tag outside the five kinds, which the
inductive `Value` excludes, so the model is total.
Note the float case: the source converts with `uint64(floatVal)`
(numeric truncation), not `math.Float64bits`. -/
def serializeValue : Value → List Nat
  | .intV v => 0 :: u64le (toUInt64 v)
  | .textV s => 1 :: (u32le s.length ++ s)
  | .boolV b => 2 :: [if b then 1 else 0]
  | .floatV bits => 3 :: u64le (goFloat64ToUint64 bits)
  | .dateV t => 4 :: u64le (toUInt64 t)

/-- `types.Deserialize`.  Returns the value and the number of bytes
consumed.  The float case converts back with `float64(uint64-payload)`
(numeric conversion), mirroring the source. -/
def deserializeValue (data : List Nat) : Except String (Value × Nat) :=
  if data.length < 1 then .error "data too short"
  else
    match readByte data 0 with
    | 0 =>
      if data.length < 9 then .error "data too short for int"
      else .ok (.intV (toInt64 (readU64 data 1)), 9)
    | 1 =>
      if data.length < 5 then .error "data too short for text length"
      else
        let len := readU32 data 1
        if data.length < 5 + len then .error "data too short for text content"
        else .ok (.textV ((data.drop 5).take len), 5 + len)
    | 2 =>
      if data.length < 2 then .error "data too short for boolean"
      else .ok (.boolV (readByte data 1 = 1), 2)
    | 3 =>
      if data.length < 9 then .error "data too short for float"
      else .ok (.floatV (goUint64ToFloat64 (readU64 data 1)), 9)
    | 4 =>
      if data.length < 9 then .error "data too short for date"
      else .ok (.dateV (toInt64 (readU64 data 1)), 9)
    | _ => .error "unsupported type"

/-! ## Pages (`storage/pager.go`)

Formatted Go error strings (`fmt.Errorf` with `%d`/`%w` substitutions)
are abbreviated to their fixed prefix throughout the model.

A page body (`Page.Data`, a `[]byte` of length exactly
`PageSize - HeaderSize` — both `NewPage` and `DeserializePage`
construct it so) is modelled by its index function `Nat → Nat`, with
`len(p.Data)` therefore the constant `PageSize - HeaderSize`.  Byte
writes become function updates; `readBytesN` materialises a subslice
`data[off : off+n]` as a list. -/

def PageSize : Nat := 4096
def HeaderSize : Nat := 16
def MaxRowsPerPage : Nat := 100

/-- `binary.LittleEndian.Uint32(p.Data[i:i+4])`. -/
def readU32P (d : Nat → Nat) (i : Nat) : Nat :=
  d i + 2 ^ 8 * d (i + 1) + 2 ^ 16 * d (i + 2) + 2 ^ 24 * d (i + 3)

/-- `copy(p.Data[i:], bs)` (also the byte-at-a-time write loops). -/
def writeBytesP (d : Nat → Nat) (i : Nat) : List Nat → (Nat → Nat)
  | [] => d
  | b :: bs => writeBytesP (fun j => if j = i then b else d j) (i + 1) bs

/-- the subslice `p.Data[off : off+n]` as a byte list. -/
def readBytesN (d : Nat → Nat) (off : Nat) : Nat → List Nat
  | 0 => []
  | n + 1 => d off :: readBytesN d (off + 1) n

inductive PageType
  | table
  | meta
deriving DecidableEq, Repr

structure Page where
  id : Nat
  ptype : PageType
  rowCount : Nat
  nextPage : Nat
  data : Nat → Nat

/-- `NewPage`: zeroed body. -/
def newPage (id : Nat) (t : PageType) : Page :=
  ⟨id, t, 0, 0, fun _ => 0⟩

/-- `Page.IsFull`. -/
def Page.isFull (p : Page) : Bool := p.rowCount ≥ MaxRowsPerPage

/-- The offset reached after scanning `n` length-prefixed records from
offset 0 — the loop shared by `WriteRow`, `ReadRow` and `UpdateRow`. -/
def offsetAfter (data : Nat → Nat) : Nat → Nat
  | 0 => 0
  | n + 1 =>
    let o := offsetAfter data n
    o + 4 + readU32P data o

/-- `Page.WriteRow`: refuses a full page (`MaxRowsPerPage` records),
then appends the length-prefixed record at the first free position if
`4 + len` bytes remain (`len(p.Data) = PageSize - HeaderSize`);
returns the record's starting offset. -/
def Page.writeRow (p : Page) (rowData : List Nat) : Except String (Nat × Page) :=
  if p.isFull then .error "page is full"
  else
    let off := offsetAfter p.data p.rowCount
    if off + 4 + rowData.length > PageSize - HeaderSize then
      .error "not enough space in page"
    else
      let d1 := writeBytesP p.data off (u32le rowData.length)
      let d2 := writeBytesP d1 (off + 4) rowData
      .ok (off, { p with data := d2, rowCount := p.rowCount + 1 })

/-- `Page.ReadRow`. -/
def Page.readRow (p : Page) (index : Nat) : Except String (List Nat) :=
  if index ≥ p.rowCount then .error "row index out of range"
  else
    let off := offsetAfter p.data index
    .ok (readBytesN p.data (off + 4) (readU32P p.data off))

def getAllRowsAux (data : Nat → Nat) (off : Nat) : Nat → Except String (List (List Nat))
  | 0 => .ok []
  | n + 1 =>
    if off + 4 > PageSize - HeaderSize then .error "corrupted page data"
    else
      let len := readU32P data off
      if off + 4 + len > PageSize - HeaderSize then .error "corrupted page data"
      else do
        let rest ← getAllRowsAux data (off + 4 + len) n
        .ok (readBytesN data (off + 4) len :: rest)

/-- `Page.GetAllRows`: decodes `rowCount` records, validating bounds. -/
def Page.getAllRows (p : Page) : Except String (List (List Nat)) :=
  getAllRowsAux p.data 0 p.rowCount

/-- `Page.UpdateRow`: in-place only; a longer payload is refused, a
shorter one zero-fills the tail of the original slot. -/
def Page.updateRow (p : Page) (index : Nat) (newRowData : List Nat) : Except String Page :=
  if index ≥ p.rowCount then .error "row index out of range"
  else
    let off := offsetAfter p.data index
    let oldLen := readU32P p.data off
    if newRowData.length > oldLen then
      .error "new row data is larger than old row data, cannot update in place"
    else
      let d1 := writeBytesP p.data off (u32le newRowData.length)
      let d2 := writeBytesP d1 (off + 4) newRowData
      let d3 := writeBytesP d2 (off + 4 + newRowData.length)
        (List.replicate (oldLen - newRowData.length) 0)
      .ok { p with data := d3 }

/-! ## Pager

The model keeps every page in a list indexed by page id (`numPages =
pages.length`).  The Go pager's cache/disk split, `FlushPage`,
`FlushAll` and `fsync` have no effect on the in-memory state modelled
here, so flushes are identities and are omitted. -/

structure Pager where
  pages : List Page

/-- `Pager.GetPage`: out-of-range ids fail. -/
def Pager.getPage (pg : Pager) (pageID : Nat) : Except String Page :=
  match pg.pages[pageID]? with
  | some p => .ok p
  | none => .error "page ID out of range"

/-- mutation of a cached page object (Go mutates via shared pointer). -/
def Pager.setPage (pg : Pager) (pageID : Nat) (p : Page) : Pager :=
  ⟨pg.pages.set pageID p⟩

/-- `Pager.AllocatePage`: appends a fresh page with the next id. -/
def Pager.allocatePage (pg : Pager) (t : PageType) : Page × Pager :=
  let p := newPage pg.pages.length t
  (p, ⟨pg.pages ++ [p]⟩)

/-! ## Rows and the table heap (`storage/table.go`) -/

/-- `storage.RowID`. -/
structure RowID where
  pageID : Nat
  rowIndex : Nat
deriving DecidableEq, Repr

/-- the zero `RowID` (Go zero value `{0, 0}`). -/
def rid0 : RowID := ⟨0, 0⟩

/-- `storage.Row`.  The executor sources additionally set a `TxID`
field; `Row.Serialize` never writes it and no claim depends on it, so
it is omitted from the model. -/
structure Row where
  id : RowID
  deleted : Bool
  values : List Value
deriving DecidableEq, Repr

/-- `Row.Serialize`: `[tombstone u8][u16 column-count][values…]`.
The `RowID` is not serialized. -/
def serializeRow (r : Row) : List Nat :=
  (if r.deleted then 1 else 0) ::
    (u16le r.values.length ++ (r.values.map serializeValue).flatten)

def deserializeValuesLoop (data : List Nat) (off : Nat) :
    Nat → Except String (List Value × Nat)
  | 0 => .ok ([], off)
  | n + 1 => do
    let (v, consumed) ← deserializeValue (data.drop off)
    let (vs, off1) ← deserializeValuesLoop data (off + consumed) n
    .ok (v :: vs, off1)

/-- `storage.DeserializeRow`.  The Go constructor leaves `ID` at its
zero value. -/
def deserializeRow (data : List Nat) (numColumns : Nat) : Except String Row :=
  if data.length < 3 then .error "data too short for row"
  else
    let deleted := readByte data 0 = 1
    let colCount := readU16 data 1
    if colCount ≠ numColumns then .error "column count mismatch"
    else do
      let (vs, _) ← deserializeValuesLoop data 3 colCount
      .ok { id := rid0, deleted := deleted, values := vs }

/-- `storage.TableStorage` (the pager reference is passed explicitly). -/
structure TableStorage where
  firstPageID : Nat
  numColumns : Nat
deriving DecidableEq, Repr

/-- the page-chain walk of `TableStorage.InsertRow`.  The Go `for` loop
is given fuel: it can fail to terminate only on a corrupt cyclic chain
or a record larger than an empty page body, in which case the model
reports an error instead. -/
def insertRowLoop (pg : Pager) (rowData : List Nat) (currentPageID : Nat) :
    Nat → Except String Pager
  | 0 => .error "page chain walk did not terminate"
  | fuel + 1 => do
    let page ← pg.getPage currentPageID
    match page.writeRow rowData with
    | .ok (_, page1) => .ok (pg.setPage currentPageID page1)
    | .error _ =>
      if page.nextPage = 0 then
        let (newP, pg1) := pg.allocatePage .table
        let pg2 := pg1.setPage currentPageID { page with nextPage := newP.id }
        insertRowLoop pg2 rowData newP.id fuel
      else insertRowLoop pg rowData page.nextPage fuel

/-- `TableStorage.InsertRow`.  Note: the row's `ID` field is never read
or written; only its serialization (which omits the `ID`) is stored. -/
def TableStorage.insertRow (t : TableStorage) (pg : Pager) (row : Row) :
    Except String Pager :=
  if row.values.length ≠ t.numColumns then .error "column count mismatch"
  else insertRowLoop pg (serializeRow row) t.firstPageID (pg.pages.length + 2)

def decodeRowsData (pageID : Nat) (numColumns : Nat) :
    List (List Nat) → Nat → Except String (List Row)
  | [], _ => .ok []
  | d :: rest, idx => do
    let row ← deserializeRow d numColumns
    let rest1 ← decodeRowsData pageID numColumns rest (idx + 1)
    .ok ({ row with id := ⟨pageID, idx⟩ } :: rest1)

def getAllRowsLoop (pg : Pager) (numColumns : Nat) (includeDeleted : Bool)
    (currentPageID : Nat) : Nat → Except String (List Row)
  | 0 => .error "page chain walk did not terminate"
  | fuel + 1 => do
    let page ← pg.getPage currentPageID
    let rowsData ← page.getAllRows
    let rows ← decodeRowsData currentPageID numColumns rowsData 0
    let kept := rows.filter fun r => !r.deleted || includeDeleted
    if page.nextPage = 0 then .ok kept
    else do
      let rest ← getAllRowsLoop pg numColumns includeDeleted page.nextPage fuel
      .ok (kept ++ rest)

/-- `TableStorage.GetAllRowsWithDeleted`: walks the chain, decodes every
slot, stamps `row.id = {page, slot}`, filters tombstones unless asked. -/
def TableStorage.getAllRowsWithDeleted (t : TableStorage) (pg : Pager)
    (includeDeleted : Bool) : Except String (List Row) :=
  getAllRowsLoop pg t.numColumns includeDeleted t.firstPageID (pg.pages.length + 1)

/-- `TableStorage.GetAllRows`. -/
def TableStorage.getAllRows (t : TableStorage) (pg : Pager) :
    Except String (List Row) :=
  t.getAllRowsWithDeleted pg false

/-- `TableStorage.MarkRowDeleted`: read, flip the tombstone,
re-serialize, update in place. -/
def TableStorage.markRowDeleted (t : TableStorage) (pg : Pager) (rowID : RowID) :
    Except String Pager := do
  let page ← pg.getPage rowID.pageID
  let rowData ← page.readRow rowID.rowIndex
  let row ← deserializeRow rowData t.numColumns
  let newRowData := serializeRow { row with deleted := true }
  let page1 ← page.updateRow rowID.rowIndex newRowData
  .ok (pg.setPage rowID.pageID page1)

/-- `TransactionManager.unmarkRowDeleted` (`transaction/manager.go`):
the symmetric tombstone-clearing used by rollback. -/
def unmarkRowDeleted (t : TableStorage) (pg : Pager) (rowID : RowID) :
    Except String Pager := do
  let page ← pg.getPage rowID.pageID
  let rowData ← page.readRow rowID.rowIndex
  let row ← deserializeRow rowData t.numColumns
  let newRowData := serializeRow { row with deleted := false }
  let page1 ← page.updateRow rowID.rowIndex newRowData
  .ok (pg.setPage rowID.pageID page1)

/-- `TableStorage.UpdateRow`: tombstone the old row, insert the new. -/
def TableStorage.updateRow (t : TableStorage) (pg : Pager) (rowID : RowID)
    (newRow : Row) : Except String Pager := do
  let pg1 ← t.markRowDeleted pg rowID
  t.insertRow pg1 newRow

/-! ## Value comparison and the B-Tree index (`index/index.go`)

`Value.AsInt` and friends return the payload together with an error;
the index code ignores the error and uses the zero value on a kind
mismatch, which the `…D` accessors reproduce (`time.Time{}.Unix()` is
`-62135596800`). -/

def Value.asIntD : Value → Int
  | .intV v => v
  | _ => 0

def Value.asTextD : Value → List Nat
  | .textV s => s
  | _ => []

def Value.asBoolD : Value → Bool
  | .boolV b => b
  | _ => false

def Value.asFloatD : Value → Nat
  | .floatV bits => bits
  | _ => 0

def Value.asDateD : Value → Int
  | .dateV t => t
  | _ => -62135596800

/-- Go `string` comparison `<`: byte-lexicographic. -/
def bytesLt : List Nat → List Nat → Bool
  | [], [] => false
  | [], _ :: _ => true
  | _ :: _, [] => false
  | a :: as, b :: bs => if a < b then true else if b < a then false else bytesLt as bs

/-- IEEE-754 `a < b` on binary64 bit patterns (Go `<` on `float64`):
false when either operand is NaN, `-0.0 == +0.0`, otherwise
sign-magnitude comparison. -/
def f64lt (a b : Nat) : Bool :=
  if f64isNaN a || f64isNaN b then false
  else if f64mag a = 0 && f64mag b = 0 then false
  else if f64sign a = 1 && f64sign b = 0 then true
  else if f64sign a = 0 && f64sign b = 1 then false
  else if f64sign a = 0 then f64mag a < f64mag b
  else f64mag b < f64mag a

/-- IEEE-754 `a == b` (Go `==` on `float64`). -/
def f64eq (a b : Nat) : Bool :=
  if f64isNaN a || f64isNaN b then false
  else (f64mag a = 0 && f64mag b = 0) || a = b

/-- `index.compareValues`: −1 / 0 / 1; values of different kinds
compare as 0. -/
def cmpV (v1 v2 : Value) : Int :=
  match v1, v2 with
  | .intV a, .intV b => if a < b then -1 else if b < a then 1 else 0
  | .textV a, .textV b => if bytesLt a b then -1 else if bytesLt b a then 1 else 0
  | .floatV a, .floatV b => if f64lt a b then -1 else if f64lt b a then 1 else 0
  | .dateV a, .dateV b => if a < b then -1 else if b < a then 1 else 0
  | .boolV a, .boolV b => if !a && b then -1 else if a && !b then 1 else 0
  | _, _ => 0

/-- `index.valuesEqual`. -/
def valuesEqual (v1 v2 : Value) : Bool := cmpV v1 v2 = 0

/-- `index.IndexEntry`. -/
structure IndexEntry where
  key : Value
  rowID : RowID
deriving DecidableEq, Repr

/-- the `(PageID, RowIndex)` tiebreak of `IndexEntry.Less`. -/
def ridLess (a b : RowID) : Bool :=
  if a.pageID ≠ b.pageID then a.pageID < b.pageID else a.rowIndex < b.rowIndex

/-- `IndexEntry.Less` (the `btree.Item` order): per-kind key comparison
switched on the *left* key's kind (the right payload falling back to
its zero value on a kind mismatch), then the RowID tiebreak. -/
def entryLess (e o : IndexEntry) : Bool :=
  match e.key with
  | .intV a => if a ≠ o.key.asIntD then a < o.key.asIntD else ridLess e.rowID o.rowID
  | .textV s =>
    if s ≠ o.key.asTextD then bytesLt s o.key.asTextD else ridLess e.rowID o.rowID
  | .floatV f =>
    if !(f64eq f o.key.asFloatD) then f64lt f o.key.asFloatD
    else ridLess e.rowID o.rowID
  | .dateV t => if t ≠ o.key.asDateD then t < o.key.asDateD else ridLess e.rowID o.rowID
  | .boolV b =>
    if b ≠ o.key.asBoolD then !b && o.key.asBoolD else ridLess e.rowID o.rowID

/-- `index.Index`.  The `google/btree` tree is modelled by its in-order
entry list, kept sorted by `entryLess`. -/
structure Index where
  name : String
  tableName : String
  columnName : String
  columnType : DataType
  entries : List IndexEntry
deriving DecidableEq, Repr

/-- `btree.ReplaceOrInsert` on the in-order list: insert at the sorted
position; an item neither less nor greater is replaced. -/
def replaceOrInsert (e : IndexEntry) : List IndexEntry → List IndexEntry
  | [] => [e]
  | x :: xs =>
    if entryLess e x then e :: x :: xs
    else if entryLess x e then x :: replaceOrInsert e xs
    else e :: xs

/-- `btree.Delete`: removes the item equal (neither less nor greater)
to `e`; absent items are a no-op. -/
def btreeDelete (e : IndexEntry) : List IndexEntry → List IndexEntry
  | [] => []
  | x :: xs =>
    if entryLess x e then x :: btreeDelete e xs
    else if entryLess e x then x :: xs
    else xs

/-- `btree.AscendGreaterOrEqual pivot`: the iteration visits the
entries not less than the pivot, in order. -/
def ascendGE (pivot : IndexEntry) (l : List IndexEntry) : List IndexEntry :=
  l.dropWhile fun x => entryLess x pivot

/-- `Index.Insert`: key kind must match the declared column kind. -/
def Index.insertEntry (idx : Index) (key : Value) (rowID : RowID) :
    Except String Index :=
  if key.kind ≠ idx.columnType then .error "key type mismatch"
  else .ok { idx with entries := replaceOrInsert ⟨key, rowID⟩ idx.entries }

/-- `Index.Delete` (never fails). -/
def Index.deleteEntry (idx : Index) (key : Value) (rowID : RowID) : Index :=
  { idx with entries := btreeDelete ⟨key, rowID⟩ idx.entries }

/-- `Index.Search`: ascend from `(key, RowID{0,0})`, collect while the
key is equal, stop at the first larger key. -/
def Index.search (idx : Index) (key : Value) : Except String (List RowID) :=
  if key.kind ≠ idx.columnType then .error "key type mismatch"
  else .ok
    (((ascendGE ⟨key, rid0⟩ idx.entries).takeWhile fun e =>
        valuesEqual e.key key).map (·.rowID))

/-- `Index.RangeSearch`: the four comparison operators, each a
directional iteration; `<`/`<=` ascend from the start and stop at the
first non-matching entry, `>`/`>=` ascend from the pivot. -/
def Index.rangeSearch (idx : Index) (operator : String) (key : Value) :
    Except String (List RowID) :=
  if key.kind ≠ idx.columnType then .error "key type mismatch"
  else
    match operator with
    | "<" => .ok ((idx.entries.takeWhile fun e => cmpV e.key key < 0).map (·.rowID))
    | "<=" => .ok ((idx.entries.takeWhile fun e =>
        cmpV e.key key < 0 ∨ cmpV e.key key = 0).map (·.rowID))
    | ">" => .ok (((ascendGE ⟨key, rid0⟩ idx.entries).filter fun e =>
        cmpV e.key key > 0).map (·.rowID))
    | ">=" => .ok ((ascendGE ⟨key, rid0⟩ idx.entries).map (·.rowID))
    | _ => .error "unsupported operator"

/-! ## Index manager (`index/manager.go`), restricted to the per-row
maintenance entry points the claims use. -/

/-- `IndexManager.InsertEntry`: for every index of the table whose
column occurs in `columnNames`, insert `(row.values[col], row.id)`. -/
def insertEntryAll (tableName : String) (row : Row) (columnNames : List String) :
    List Index → Except String (List Index)
  | [] => .ok []
  | idx :: rest =>
    if idx.tableName ≠ tableName then do
      let rest1 ← insertEntryAll tableName row columnNames rest
      .ok (idx :: rest1)
    else
      match columnNames.findIdx? (· = idx.columnName) with
      | none => do
        let rest1 ← insertEntryAll tableName row columnNames rest
        .ok (idx :: rest1)
      | some colIndex => do
        let idx1 ← idx.insertEntry (row.values.getD colIndex (.intV 0)) row.id
        let rest1 ← insertEntryAll tableName row columnNames rest
        .ok (idx1 :: rest1)

/-- `IndexManager.DeleteEntry` (symmetric removal; cannot fail). -/
def deleteEntryAll (tableName : String) (row : Row) (columnNames : List String) :
    List Index → List Index
  | [] => []
  | idx :: rest =>
    if idx.tableName ≠ tableName then
      idx :: deleteEntryAll tableName row columnNames rest
    else
      match columnNames.findIdx? (· = idx.columnName) with
      | none => idx :: deleteEntryAll tableName row columnNames rest
      | some colIndex =>
        idx.deleteEntry (row.values.getD colIndex (.intV 0)) row.id ::
          deleteEntryAll tableName row columnNames rest

/-! ## Lock manager (`transaction/lock.go`)

One table's lock state.  Transaction ids are `Nat`; `writer = 0` means
no writer.  An acquire attempt whose condition fails leaves the state
unchanged (the Go code busy-waits and eventually times out without
touching the state). -/

structure TableLock where
  readers : Finset Nat
  writer : Nat
deriving DecidableEq

/-- `NewTableLock`. -/
def newTableLock : TableLock := ⟨∅, 0⟩

/-- the success condition and effect of `AcquireReadLock`'s critical
section: no writer, or the writer is this transaction. -/
def tryAcquireRead (l : TableLock) (txID : Nat) : Option TableLock :=
  if l.writer = 0 ∨ l.writer = txID then
    some { l with readers := insert txID l.readers }
  else none

/-- the success condition and effect of `AcquireWriteLock`'s critical
section: no foreign writer and no foreign reader; the writer also
takes the read slot. -/
def tryAcquireWrite (l : TableLock) (txID : Nat) : Option TableLock :=
  if (l.writer = 0 ∨ l.writer = txID) ∧ ∀ r ∈ l.readers, r = txID then
    some { readers := insert txID l.readers, writer := txID }
  else none

/-- `ReleaseLocks` / `ReleaseTableLock`, restricted to one table: drop
the transaction's read slot and clear the writer if it is this
transaction. -/
def releaseLock (l : TableLock) (txID : Nat) : TableLock :=
  { readers := l.readers.erase txID,
    writer := if l.writer = txID then 0 else l.writer }

/-- one successful-or-failed step against the lock by any transaction. -/
inductive LockAction
  | acquireRead (txID : Nat)
  | acquireWrite (txID : Nat)
  | release (txID : Nat)

def lockStep (l : TableLock) : LockAction → TableLock
  | .acquireRead tx => (tryAcquireRead l tx).getD l
  | .acquireWrite tx => (tryAcquireWrite l tx).getD l
  | .release tx => releaseLock l tx

/-! ## Transaction log and rollback (`transaction/transaction.go`,
`transaction/manager.go`)

The model is scoped to one table, so `Operation.TableName` and the
catalog lookup of `rollbackOperation` (assumed to succeed) are
elided. -/

inductive OpType
  | insert
  | update
  | delete
deriving DecidableEq, Repr

structure Operation where
  type : OpType
  rowID : RowID
  oldData : Option Row
  newData : Option Row
deriving DecidableEq, Repr

/-- `TransactionManager.rollbackOperation`.  In the update case the Go
code dereferences `op.NewData` unconditionally; a `nil` pointer would
panic, modelled as an error. -/
def rollbackOperation (t : TableStorage) (pg : Pager) (op : Operation) :
    Except String Pager :=
  match op.type with
  | .insert => t.markRowDeleted pg op.rowID
  | .update =>
    match op.oldData with
    | none => .error "no old data for rollback"
    | some old =>
      match op.newData with
      | none => .error "nil new data"
      | some nw => do
        let pg1 ← t.markRowDeleted pg nw.id
        unmarkRowDeleted t pg1 old.id
  | .delete => unmarkRowDeleted t pg op.rowID

/-- the replay loop of `TransactionManager.Rollback`: operations in
reverse order; a failing step only logs a warning and replay
continues. -/
def rollbackOps (t : TableStorage) (pg : Pager) (ops : List Operation) : Pager :=
  ops.reverse.foldl
    (fun pgAcc op =>
      match rollbackOperation t pgAcc op with
      | .ok pg1 => pg1
      | .error _ => pgAcc)
    pg

/-! ## Executor (`executor/insert.go`, `executor/delete.go`)

Lock acquisition and the auto-commit flush are state-neutral here and
are omitted; `curOps = some ops` models an active transaction
(`e.currentTx != nil`) whose operation log is `ops`, `none` models
auto-commit. -/

/-- `Executor.executeInsert` for one `VALUES` tuple whose literals have
already been evaluated (`evalSQLVal` is modelled separately).  The row
is constructed with the zero `RowID` (Go `&storage.Row{…}` leaves `ID`
at its zero value) and that same `row.ID` is used for the index
entries and the logged operation. -/
def executeInsert (t : TableStorage) (tableName : String)
    (columnNames : List String) (pg : Pager) (indexes : List Index)
    (curOps : Option (List Operation)) (vals : List Value) :
    Except String (Pager × List Index × Option (List Operation)) :=
  if vals.length ≠ columnNames.length then .error "column count mismatch"
  else
    let row : Row := { id := rid0, deleted := false, values := vals }
    do
      let pg1 ← t.insertRow pg row
      let indexes1 ← insertEntryAll tableName row columnNames indexes
      let curOps1 := curOps.map
        (· ++ [{ type := .insert, rowID := row.id, oldData := none,
                 newData := some row : Operation }])
      .ok (pg1, indexes1, curOps1)

def deleteRowsLoop (t : TableStorage) (tableName : String)
    (columnNames : List String) (pred : Row → Bool) (pg : Pager)
    (indexes : List Index) (count : Nat) :
    List Row → Except String (Pager × List Index × Nat)
  | [] => .ok (pg, indexes, count)
  | row :: rest =>
    if row.deleted then
      deleteRowsLoop t tableName columnNames pred pg indexes count rest
    else if pred row then do
      let indexes1 := deleteEntryAll tableName row columnNames indexes
      let pg1 ← t.markRowDeleted pg row.id
      deleteRowsLoop t tableName columnNames pred pg1 indexes1 (count + 1) rest
    else deleteRowsLoop t tableName columnNames pred pg indexes count rest

/-- `Executor.executeDelete` with the WHERE clause abstracted as
`pred` (expression evaluation is outside the engine core).  Faithful
to the source, no operation is ever appended to the transaction log —
the function neither receives nor produces the current op list. -/
def executeDelete (t : TableStorage) (tableName : String)
    (columnNames : List String) (pg : Pager) (indexes : List Index)
    (pred : Row → Bool) : Except String (Pager × List Index × Nat) := do
  let allRows ← t.getAllRowsWithDeleted pg true
  deleteRowsLoop t tableName columnNames pred pg indexes 0 allRows

/-! ## Literal ingest (`Executor.evalSQLVal`, `executor/insert.go`) -/

/-- ASCII bytes of a Lean string literal (used only for ASCII). -/
def strBytes (s : String) : List Nat := s.data.map Char.toNat

/-- `strings.ToLower`, restricted to ASCII (the only bytes the
executor compares against). -/
def toLowerBytes (s : List Nat) : List Nat :=
  s.map fun b => if 65 ≤ b ∧ b ≤ 90 then b + 32 else b

def isDigit (b : Nat) : Bool := 48 ≤ b ∧ b ≤ 57

def digitVal (b : Nat) : Nat := b - 48

def isLeapYear (y : Nat) : Bool := y % 4 = 0 && (y % 100 ≠ 0 || y % 400 = 0)

def daysInMonth (y m : Nat) : Nat :=
  if m = 2 then (if isLeapYear y then 29 else 28)
  else if m = 4 ∨ m = 6 ∨ m = 9 ∨ m = 11 then 30
  else 31

/-- days between 1970-01-01 and `y-m-d` in the proleptic Gregorian
calendar (the civil-from-days algorithm used by every epoch
conversion, including Go's `time`). -/
def daysFromCivil (y m d : Nat) : Int :=
  let yAdj : Int := if m ≤ 2 then (y : Int) - 1 else (y : Int)
  let era : Int := yAdj.fdiv 400
  let yoe : Int := yAdj - era * 400
  let mp : Nat := if m > 2 then m - 3 else m + 9
  let doy : Int := (153 * (mp : Int) + 2) / 5 + (d : Int) - 1
  let doe : Int := yoe * 365 + yoe / 4 - yoe / 100 + doy
  era * 146097 + doe - 719468

/-- Go `time.Parse("2006-01-02", s)` reduced to its observable output
in this codec: `none` on any format or range violation, otherwise the
Unix seconds of `y-m-d 00:00:00 UTC`.  The layout demands exactly
`dddd-dd-dd` with a valid month and day-of-month. -/
def parseDateYMD (s : List Nat) : Option Int :=
  match s with
  | [y1, y2, y3, y4, h1, m1, m2, h2, d1, d2] =>
    if h1 = 45 ∧ h2 = 45 ∧ isDigit y1 ∧ isDigit y2 ∧ isDigit y3 ∧ isDigit y4 ∧
        isDigit m1 ∧ isDigit m2 ∧ isDigit d1 ∧ isDigit d2 then
      let y := 1000 * digitVal y1 + 100 * digitVal y2 + 10 * digitVal y3 + digitVal y4
      let m := 10 * digitVal m1 + digitVal m2
      let d := 10 * digitVal d1 + digitVal d2
      if 1 ≤ m ∧ m ≤ 12 ∧ 1 ≤ d ∧ d ≤ daysInMonth y m then
        some (86400 * daysFromCivil y m d)
      else none
    else none
  | _ => none

/-- `sqlparser.SQLVal` after the `strconv` parse the executor applies:
`intL` carries the parsed `int64`, `floatL` the parsed `float64`'s bit
pattern, `strL` the literal's bytes. -/
inductive SQLLit
  | intL (v : Int)
  | strL (s : List Nat)
  | floatL (bits : Nat)
deriving DecidableEq, Repr

/-- `Executor.evalSQLVal`: literal-to-column ingest with the three
coercions (INT literal → FLOAT column, string → DATE via `YYYY-MM-DD`,
case-insensitive `true`/`false` string → BOOLEAN). -/
def evalSQLVal (val : SQLLit) (expectedType : DataType) : Except String Value :=
  match val with
  | .intL v =>
    if expectedType = .float then .ok (.floatV (goInt64ToFloat64 v))
    else if expectedType ≠ .int then
      .error ("type mismatch: expected " ++ expectedType.str ++ ", got INT")
    else .ok (.intV v)
  | .strL s =>
    match expectedType with
    | .text => .ok (.textV s)
    | .date =>
      match parseDateYMD s with
      | some unix => .ok (.dateV unix)
      | none => .error "invalid date format"
    | .boolean =>
      let lower := toLowerBytes s
      if lower = strBytes "true" then .ok (.boolV true)
      else if lower = strBytes "false" then .ok (.boolV false)
      else .error "invalid boolean value"
    | _ => .error ("type mismatch: expected " ++ expectedType.str ++ ", got TEXT")
  | .floatL bits =>
    if expectedType ≠ .float then
      .error ("type mismatch: expected " ++ expectedType.str ++ ", got FLOAT")
    else .ok (.floatV bits)

/-! ## Concrete scenarios used by the counterexample and evaluation
theorems -/

/-- IEEE-754 bit pattern of `1.5`. -/
def bits15 : Nat := 0x3FF8000000000000

/-- IEEE-754 bit pattern of `1.0`. -/
def bits10 : Nat := 0x3FF0000000000000

/-- a page holding 100 three-byte records (each slot is the 7-byte
pattern `[3,0,0,0,7,7,7]`, repeated back-to-back over bytes 0–699):
`MaxRowsPerPage` is reached with 3380 body bytes still free. -/
def pageC5 : Page :=
  { id := 0, ptype := .table, rowCount := 100, nextPage := 0,
    data := fun i => if i < 700 then [3, 0, 0, 0, 7, 7, 7].getD (i % 7) 0 else 0 }

/-- a page holding the records `[7,7]` and `[9]`. -/
def pageC6 : Page :=
  { id := 0, ptype := .table, rowCount := 2, nextPage := 0,
    data := fun i => [2, 0, 0, 0, 7, 7, 1, 0, 0, 0, 9].getD i 0 }

/-- a single-column, single-page table rooted at page 0. -/
def ts1 : TableStorage := ⟨0, 1⟩

/-- the pager after `NewTableStorage` allocated the table's first page. -/
def pg0 : Pager := ⟨[newPage 0 .table]⟩

/-- the `BEGIN; DELETE; ROLLBACK` script: one committed row `(1)`, then
a transaction whose only statement deletes it, then rollback replaying
the transaction's op log; returns the live rows visible before BEGIN
and after ROLLBACK. -/
def scenRollbackDelete : Except String (List Row × List Row) := do
  let (pg1, _, _) ← executeInsert ts1 "t" ["a"] pg0 [] none [.intV 1]
  -- BEGIN starts a transaction with an empty op log; executeDelete
  -- (faithful to the source) adds nothing to it
  let (pg2, _, _) ← executeDelete ts1 "t" ["a"] pg1 [] fun _ => true
  let pg3 := rollbackOps ts1 pg2 []
  let pre ← ts1.getAllRows pg1
  let post ← ts1.getAllRows pg3
  .ok (pre, post)

/-- an empty index on column `a` of table `t`. -/
def idx0 : Index := ⟨"ix", "t", "a", .int, []⟩

/-- the `CREATE INDEX; INSERT (1); INSERT (2)` script; returns the
RowIDs `Search(2)` yields and the RowIDs of the live heap rows whose
column equals 2. -/
def scenIndexInsert : Except String (List RowID × List RowID) := do
  let (pg1, ixs1, _) ← executeInsert ts1 "t" ["a"] pg0 [idx0] none [.intV 1]
  let (pg2, ixs2, _) ← executeInsert ts1 "t" ["a"] pg1 ixs1 none [.intV 2]
  match ixs2 with
  | [ix] => do
    let found ← ix.search (.intV 2)
    let rows ← ts1.getAllRows pg2
    let actual := (rows.filter fun r => r.values.getD 0 (.intV 0) = .intV 2).map (·.id)
    .ok (found, actual)
  | _ => .error "unexpected index count"

/-! ## Derived predicates and further concrete inputs for theorems -/

/-- the per-table lock invariant asserted by the spec
(`writer != 0 ⇒ readers ⊆ {writer}`). -/
def lockInv (l : TableLock) : Prop :=
  l.writer ≠ 0 → ∀ r ∈ l.readers, r = l.writer

/-- the relation `op` between an entry key and the search key, read
off `compareValues` (which on comparable same-kind values is the
per-kind total order). -/
def relOp (operator : String) (a k : Value) : Bool :=
  match operator with
  | "<" => cmpV a k < 0
  | "<=" => cmpV a k ≤ 0
  | ">" => 0 < cmpV a k
  | ">=" => 0 ≤ cmpV a k
  | _ => false

/-- a key the per-kind total order can rank: it has the declared kind,
and a float key is a genuine (64-bit, non-NaN) bit pattern. -/
def comparableKey (d : DataType) (v : Value) : Bool :=
  v.kind = d &&
    (match v with
     | .floatV bits => decide (bits < 2 ^ 64) && !f64isNaN bits
     | _ => true)

/-- non-NaN float64 bit patterns ranked as integers (sign-magnitude,
the two zeros collapsing). -/
def intOfF64 (bits : Nat) : Int :=
  if f64sign bits = 1 then -(f64mag bits : Int) else (f64mag bits : Int)

/-- the sort key realised by the per-kind comparisons. -/
def orderKey : Value → Int ⊕ List Nat
  | .intV v => .inl v
  | .textV s => .inr s
  | .boolV b => .inl (if b then 1 else 0)
  | .floatV bits => .inl (intOfF64 bits)
  | .dateV t => .inl t

def keyLtB : Int ⊕ List Nat → Int ⊕ List Nat → Bool
  | .inl a, .inl b => a < b
  | .inr a, .inr b => bytesLt a b
  | _, _ => false

/-- the body `d` holds the bytes `bs` starting at offset `off`. -/
def bytesAt (d : Nat → Nat) (off : Nat) (bs : List Nat) : Prop :=
  ∀ j, j < bs.length → d (off + j) = bs.getD j 0

/-- the body `d` holds the length-prefixed records `rs` back-to-back
from offset `off` (the well-formedness invariant of a page body). -/
def recsAt (d : Nat → Nat) : Nat → List (List Nat) → Prop
  | _, [] => True
  | off, r :: rs =>
    bytesAt d off (u32le r.length) ∧ bytesAt d (off + 4) r ∧
      recsAt d (off + 4 + r.length) rs

/-- total encoded size of a record list. -/
def sizeRecs : List (List Nat) → Nat
  | [] => 0
  | r :: rs => 4 + r.length + sizeRecs rs

/-- the flat byte encoding of a record list (used to build concrete
page bodies). -/
def encodeRecsList : List (List Nat) → List Nat
  | [] => []
  | r :: rs => u32le r.length ++ r ++ encodeRecsList rs

instance decBytesAt (d : Nat → Nat) (off : Nat) (bs : List Nat) :
    Decidable (bytesAt d off bs) := by
  unfold bytesAt
  infer_instance

instance decRecsAt (d : Nat → Nat) :
    ∀ (off : Nat) (rs : List (List Nat)), Decidable (recsAt d off rs)
  | _, [] => .isTrue trivial
  | off, r :: rs =>
    have : Decidable (recsAt d (off + 4 + r.length) rs) := decRecsAt d _ rs
    by unfold recsAt; infer_instance

/-- what a value becomes after one serialize/deserialize round trip
(the identity except for the float truncation and 64-bit
wrap-around). -/
def rtValue : Value → Value
  | .intV v => .intV (toInt64 (toUInt64 v))
  | .textV s => .textV s
  | .boolV b => .boolV b
  | .floatV bits => .floatV (goUint64ToFloat64 (goFloat64ToUint64 bits))
  | .dateV t => .dateV (toInt64 (toUInt64 t))

/-- rows whose encoded form parses back: the arity fits `u16`, text
lengths fit `u32`. -/
def representableRow (r : Row) : Prop :=
  r.values.length < 2 ^ 16 ∧ ∀ s, Value.textV s ∈ r.values → s.length < 2 ^ 32

/-- one executor insert of `(5)` into the indexed single-column table
inside a transaction with an empty log (input for witnesses). -/
def c4run : Except String (Pager × List Index × Option (List Operation)) :=
  executeInsert ts1 "t" ["a"] pg0 [idx0] (some []) [.intV 5]

def c4pg : Pager :=
  match c4run with
  | .ok (pg, _, _) => pg
  | .error _ => pg0

def c4ixs : List Index :=
  match c4run with
  | .ok (_, ixs, _) => ixs
  | .error _ => []

def c4ops : Option (List Operation) :=
  match c4run with
  | .ok (_, _, ops) => ops
  | .error _ => none

/-- a three-entry INT index (input for the range-search witness). -/
def idxC7 : Index :=
  ⟨"ix", "t", "a", .int,
    [⟨.intV 1, ⟨0, 0⟩⟩, ⟨.intV 2, ⟨0, 1⟩⟩, ⟨.intV 3, ⟨0, 2⟩⟩]⟩

/-- `pageC6` after the equal-length in-place update of record 0 by
`[8,8]` (input for the update-frame witness). -/
def pageC6upd : Page :=
  match pageC6.updateRow 0 [8, 8] with
  | .ok p1 => p1
  | .error _ => pageC6

/-- a one-row heap page: record 0 is the serialised row `(7)`
(input for the mark-deleted witness). -/
def rowC9 : Row := ⟨rid0, false, [.intV 7]⟩

def pageC9 : Page :=
  { id := 0, ptype := .table, rowCount := 1, nextPage := 0,
    data := fun i => (encodeRecsList [serializeRow rowC9]).getD i 0 }

/-! # Theorems on the claims -/

/-- **C1** — the claim asserts `deserialize(serialize(v)) = (v, len)`
for every representable `v` with the float payload the IEEE-754 bit
pattern verbatim.  The code instead converts with `uint64(floatVal)` /
`float64(payload)` (numeric truncation), so the float `1.5` (bit
pattern `0x3FF8000000000000`) serialises to the integer payload `1`
and deserialises to `1.0`: the round trip loses the value and the
payload is not the bit pattern. -/
theorem float_payload_roundtrip_bug :
    serializeValue (.floatV bits15) = [3, 1, 0, 0, 0, 0, 0, 0, 0] ∧
    deserializeValue (serializeValue (.floatV bits15)) = .ok (.floatV bits10, 9) ∧
    Value.floatV bits10 ≠ Value.floatV bits15 := by decide

/-- **C2** — the claim asserts that after `BEGIN; S1; …; Sn; ROLLBACK`
a SELECT sees the pre-BEGIN rows.  `executeDelete` never appends an
operation to the transaction log, so rolling back a transaction whose
statement deleted the committed row `(1)` replays nothing: the SELECT
before BEGIN sees the row, the SELECT after ROLLBACK sees no rows. -/
theorem rollback_after_delete_not_restored :
    scenRollbackDelete =
      .ok ([{ id := rid0, deleted := false, values := [.intV 1] }], []) ∧
    ([] : List Row) ≠ [{ id := rid0, deleted := false, values := [.intV 1] }] := by
  decide

/-- **C3** — the claim asserts `Search(k)` returns exactly the RowIDs
of the live rows whose indexed column equals `k`.  After two executor
inserts `(1)` and `(2)` into an indexed table, `Search(2)` returns
`[{0,0}]` — the zero RowID recorded at insert — while the live heap
row with value 2 sits at `{0,1}`. -/
theorem index_search_returns_wrong_rowids :
    scenIndexInsert = .ok ([rid0], [⟨0, 1⟩]) ∧ rid0 ≠ (⟨0, 1⟩ : RowID) := by decide

/-- **C5**'s counterexample — a page holding 100 three-byte records has
3373 free body bytes, far more than the `4 + 3` the claim requires for
success, yet `WriteRow` fails because `MaxRowsPerPage = 100` is
reached. -/
theorem writeRow_full_despite_space :
    exceptErr (pageC5.writeRow [1, 2, 3]) = some "page is full" ∧
    offsetAfter pageC5.data pageC5.rowCount + 4 + 3 ≤ PageSize - HeaderSize := by
  decide

/-- **C5** (amended) — `WriteRow` appends the record at the first free
position (the returned offset is the scan position after the existing
records, and the record count increments), but success requires *both*
fewer than `MaxRowsPerPage = 100` existing records *and* at least
`4 + len(bytes)` free body bytes; it fails when either bound is
violated (the claim omitted the record-count cap, refuted by
`writeRow_full_despite_space`). -/
theorem writeRow_success_condition (p : Page) (b : List Nat) :
    ((p.writeRow b).isOk = true ↔
      p.rowCount < MaxRowsPerPage ∧
        offsetAfter p.data p.rowCount + 4 + b.length ≤ PageSize - HeaderSize) ∧
    (∀ off p1, p.writeRow b = .ok (off, p1) →
      off = offsetAfter p.data p.rowCount ∧
      p1.rowCount = p.rowCount + 1 ∧
      p1.data = writeBytesP (writeBytesP p.data off (u32le b.length)) (off + 4) b) := by
  constructor
  · unfold Page.writeRow Page.isFull
    by_cases h1 : p.rowCount ≥ MaxRowsPerPage
    · simp [h1, Except.isOk, Except.toBool]
      try omega
    · simp [h1, Except.isOk, Except.toBool]
      by_cases h2 : offsetAfter p.data p.rowCount + 4 + b.length > PageSize - HeaderSize
      · simp [h2, Except.isOk, Except.toBool]
        try omega
      · simp [h2, Except.isOk, Except.toBool]
        try omega
  · intro off p1 h
    unfold Page.writeRow Page.isFull at h
    by_cases h1 : p.rowCount ≥ MaxRowsPerPage
    · simp [h1] at h
    · simp [h1] at h
      by_cases h2 : offsetAfter p.data p.rowCount + 4 + b.length > PageSize - HeaderSize
      · simp [h2] at h
      · simp [h2] at h
        obtain ⟨hoff, hp⟩ := h
        subst hoff
        exact ⟨rfl, by rw [← hp], by rw [← hp]⟩

theorem writeRow_success_condition_witness :
    ((newPage 0 .table).writeRow [5]).isOk = true :=
  (writeRow_success_condition (newPage 0 .table) [5]).1.mpr (by decide)

/-- every lock step (successful or failed acquire, release) preserves
the writer/readers invariant. -/
theorem lockStep_preserves_inv (l : TableLock) (a : LockAction) (h : lockInv l) :
    lockInv (lockStep l a) := by
  cases a with
  | acquireRead tx =>
    unfold lockStep tryAcquireRead
    by_cases hc : l.writer = 0 ∨ l.writer = tx
    · simp only [if_pos hc, Option.getD_some]
      intro hw r hr
      rcases Finset.mem_insert.mp hr with h1 | h1
      · rcases hc with hc | hc
        · exact absurd hc hw
        · rw [h1, ← hc]
      · exact h hw r h1
    · simp only [if_neg hc, Option.getD_none]
      exact h
  | acquireWrite tx =>
    unfold lockStep tryAcquireWrite
    by_cases hc : (l.writer = 0 ∨ l.writer = tx) ∧ ∀ r ∈ l.readers, r = tx
    · simp only [if_pos hc, Option.getD_some]
      intro _ r hr
      rcases Finset.mem_insert.mp hr with h1 | h1
      · exact h1
      · exact hc.2 r h1
    · simp only [if_neg hc, Option.getD_none]
      exact h
  | release tx =>
    unfold lockStep releaseLock
    intro hw r hr
    by_cases hwt : l.writer = tx
    · simp [hwt] at hw
    · simp only [if_neg hwt] at hw ⊢
      exact h hw r (Finset.mem_of_mem_erase hr)

theorem locks_foldl_inv (acts : List LockAction) :
    ∀ l : TableLock, lockInv l → lockInv (acts.foldl lockStep l) := by
  induction acts with
  | nil => exact fun l h => h
  | cons a rest ih =>
    intro l h
    exact ih (lockStep l a) (lockStep_preserves_inv l a h)

/-- **C8** — in every lock state reachable from the fresh lock by any
interleaving of acquire-read / acquire-write / release steps (failed
acquires leave the state unchanged), a nonzero writer implies every
reader is that writer; and a transaction that holds the read slot
alone (no writer, no other readers) can upgrade to the write lock. -/
theorem lock_invariant_and_upgrade :
    (∀ acts : List LockAction,
      lockInv (acts.foldl lockStep newTableLock)) ∧
    (∀ (l : TableLock) (tx : Nat), l.writer = 0 → (∀ r ∈ l.readers, r = tx) →
      (tryAcquireWrite l tx).isSome = true) := by
  constructor
  · intro acts
    apply locks_foldl_inv
    intro hw
    simp [newTableLock] at hw
  · intro l tx hw hr
    unfold tryAcquireWrite
    rw [if_pos ⟨Or.inl hw, hr⟩]
    rfl

theorem lock_invariant_and_upgrade_witness :
    (tryAcquireWrite ⟨{3}, 0⟩ 3).isSome = true :=
  lock_invariant_and_upgrade.2 ⟨{3}, 0⟩ 3 rfl (by decide)

/-- **C10** — `evalSQLVal` ingest coercions: an integer literal into a
FLOAT column becomes the corresponding float (`float64(v)`); a string
literal into a DATE column goes through the `YYYY-MM-DD` parse; a
case-insensitive `true`/`false` string into a BOOLEAN column becomes
the boolean; and every other cross-kind literal/column pair fails with
the type-mismatch error. -/
theorem evalSQLVal_coercions :
    (∀ v : Int, evalSQLVal (.intL v) .float = .ok (.floatV (goInt64ToFloat64 v))) ∧
    (∀ v : Int, evalSQLVal (.intL v) .int = .ok (.intV v)) ∧
    (∀ v : Int, evalSQLVal (.intL v) .text =
      .error "type mismatch: expected TEXT, got INT") ∧
    (∀ v : Int, evalSQLVal (.intL v) .boolean =
      .error "type mismatch: expected BOOLEAN, got INT") ∧
    (∀ v : Int, evalSQLVal (.intL v) .date =
      .error "type mismatch: expected DATE, got INT") ∧
    (∀ s, evalSQLVal (.strL s) .date =
      match parseDateYMD s with
      | some unix => .ok (.dateV unix)
      | none => .error "invalid date format") ∧
    (∀ s, toLowerBytes s = strBytes "true" →
      evalSQLVal (.strL s) .boolean = .ok (.boolV true)) ∧
    (∀ s, toLowerBytes s = strBytes "false" →
      evalSQLVal (.strL s) .boolean = .ok (.boolV false)) ∧
    (∀ s, evalSQLVal (.strL s) .int =
      .error "type mismatch: expected INT, got TEXT") ∧
    (∀ s, evalSQLVal (.strL s) .float =
      .error "type mismatch: expected FLOAT, got TEXT") ∧
    (∀ f, evalSQLVal (.floatL f) .float = .ok (.floatV f)) ∧
    (∀ f d, d ≠ .float →
      evalSQLVal (.floatL f) d =
        .error ("type mismatch: expected " ++ d.str ++ ", got FLOAT")) := by
  refine ⟨fun v => rfl, fun v => rfl, fun v => rfl, fun v => rfl, fun v => rfl,
    fun s => rfl, ?_, ?_, fun s => rfl, fun s => rfl, fun f => rfl, ?_⟩
  · intro s h
    simp [evalSQLVal, h]
  · intro s h
    simp [evalSQLVal, h]
    decide
  · intro f d hd
    cases d
    case float => exact absurd rfl hd
    all_goals rfl

theorem evalSQLVal_coercions_witness :
    evalSQLVal (.strL (strBytes "TRUE")) .boolean = .ok (.boolV true) ∧
    evalSQLVal (.floatL bits15) .int =
      .error "type mismatch: expected INT, got FLOAT" := by
  obtain ⟨-, -, -, -, -, -, h7, -, -, -, -, h12⟩ := evalSQLVal_coercions
  exact ⟨h7 _ (by decide), h12 bits15 .int (by decide)⟩

/-- any element of `ReplaceOrInsert e l` is `e` or came from `l`. -/
theorem mem_replaceOrInsert (e x : IndexEntry) :
    ∀ l : List IndexEntry, x ∈ replaceOrInsert e l → x = e ∨ x ∈ l := by
  intro l
  induction l with
  | nil => intro h; simpa [replaceOrInsert] using h
  | cons a as ih =>
    intro h
    unfold replaceOrInsert at h
    by_cases h1 : entryLess e a
    · rw [if_pos h1] at h
      rcases List.mem_cons.mp h with h2 | h2
      · exact Or.inl h2
      · exact Or.inr h2
    · rw [if_neg h1] at h
      by_cases h2 : entryLess a e
      · rw [if_pos h2] at h
        rcases List.mem_cons.mp h with h3 | h3
        · exact Or.inr (List.mem_cons.mpr (Or.inl h3))
        · rcases ih h3 with h4 | h4
          · exact Or.inl h4
          · exact Or.inr (List.mem_cons.mpr (Or.inr h4))
      · rw [if_neg h2] at h
        rcases List.mem_cons.mp h with h3 | h3
        · exact Or.inl h3
        · exact Or.inr (List.mem_cons.mpr (Or.inr h3))

/-- every entry the index manager's per-row insert adds carries exactly
`row.id`. -/
theorem insertEntryAll_entries (tn : String) (row : Row) (cols : List String) :
    ∀ (ixs ixs' : List Index),
      insertEntryAll tn row cols ixs = .ok ixs' →
      ∀ ix' ∈ ixs', ∀ en ∈ ix'.entries,
        en.rowID = row.id ∨ ∃ ix ∈ ixs, en ∈ ix.entries := by
  intro ixs
  induction ixs with
  | nil =>
    intro ixs' h
    simp only [insertEntryAll] at h
    cases h
    simp
  | cons idx rest ih =>
    intro ixs' h
    unfold insertEntryAll at h
    split at h
    · cases hr : insertEntryAll tn row cols rest with
      | error e => rw [hr] at h; simp [Bind.bind, Except.bind] at h
      | ok rest1 =>
        rw [hr] at h
        simp only [Bind.bind, Except.bind, Except.ok.injEq] at h
        subst h
        intro ix' hix' en hen
        rcases List.mem_cons.mp hix' with h2 | h2
        · subst h2
          exact Or.inr ⟨ix', List.mem_cons.mpr (Or.inl rfl), hen⟩
        · rcases ih rest1 hr ix' h2 en hen with h3 | ⟨ix, hix, hin⟩
          · exact Or.inl h3
          · exact Or.inr ⟨ix, List.mem_cons.mpr (Or.inr hix), hin⟩
    · split at h
      · cases hr : insertEntryAll tn row cols rest with
        | error e => rw [hr] at h; simp [Bind.bind, Except.bind] at h
        | ok rest1 =>
          rw [hr] at h
          simp only [Bind.bind, Except.bind, Except.ok.injEq] at h
          subst h
          intro ix' hix' en hen
          rcases List.mem_cons.mp hix' with h2 | h2
          · subst h2
            exact Or.inr ⟨ix', List.mem_cons.mpr (Or.inl rfl), hen⟩
          · rcases ih rest1 hr ix' h2 en hen with h3 | ⟨ix, hix, hin⟩
            · exact Or.inl h3
            · exact Or.inr ⟨ix, List.mem_cons.mpr (Or.inr hix), hin⟩
      · rename_i colIndex heq
        cases hins : idx.insertEntry (row.values.getD colIndex (.intV 0)) row.id with
        | error e => rw [hins] at h; simp [Bind.bind, Except.bind] at h
        | ok idx1 =>
          rw [hins] at h
          cases hr : insertEntryAll tn row cols rest with
          | error e => rw [hr] at h; simp [Bind.bind, Except.bind] at h
          | ok rest1 =>
            rw [hr] at h
            simp only [Bind.bind, Except.bind, Except.ok.injEq] at h
            subst h
            intro ix' hix' en hen
            rcases List.mem_cons.mp hix' with h2 | h2
            · subst h2
              unfold Index.insertEntry at hins
              split at hins
              · simp at hins
              · simp only [Except.ok.injEq] at hins
                subst hins
                simp only at hen
                rcases mem_replaceOrInsert _ _ _ hen with h3 | h3
                · subst h3; exact Or.inl rfl
                · exact Or.inr ⟨idx, List.mem_cons.mpr (Or.inl rfl), h3⟩
            · rcases ih rest1 hr ix' h2 en hen with h3 | ⟨ix, hix, hin⟩
              · exact Or.inl h3
              · exact Or.inr ⟨ix, List.mem_cons.mpr (Or.inr hix), hin⟩

/-- **C4** — `InsertRow` never reads or writes the row's `ID` (its
result does not depend on it, and the stored bytes omit it), so the
executor's freshly constructed row keeps the zero RowID `{0,0}`; the
transaction-log Insert operation records `RowID {0,0}` and so does
every index entry added for the new row. -/
theorem insert_never_assigns_rowid (t : TableStorage) (tn : String)
    (cols : List String) (pg : Pager) (ixs : List Index)
    (ops : List Operation) (vals : List Value) (r : Row) (anyID : RowID) :
    (t.insertRow pg { r with id := anyID } = t.insertRow pg r) ∧
    (∀ pg1 ixs1 ops1,
      executeInsert t tn cols pg ixs (some ops) vals = .ok (pg1, ixs1, ops1) →
      ops1 = some (ops ++
        [{ type := .insert, rowID := rid0, oldData := none,
           newData := some { id := rid0, deleted := false, values := vals } }]) ∧
      ∀ ix' ∈ ixs1, ∀ en ∈ ix'.entries,
        en.rowID = rid0 ∨ ∃ ix ∈ ixs, en ∈ ix.entries) := by
  constructor
  · rfl
  · intro pg1 ixs1 ops1 h
    unfold executeInsert at h
    split at h
    · cases h
    · dsimp only at h
      cases hins : t.insertRow pg { id := rid0, deleted := false, values := vals } with
      | error e => rw [hins] at h; simp [Bind.bind, Except.bind] at h
      | ok pgx =>
        rw [hins] at h
        cases hix : insertEntryAll tn { id := rid0, deleted := false, values := vals }
            cols ixs with
        | error e => rw [hix] at h; simp [Bind.bind, Except.bind] at h
        | ok ixsx =>
          rw [hix] at h
          simp only [Bind.bind, Except.bind, Except.ok.injEq, Prod.mk.injEq] at h
          obtain ⟨hpg, hixs, hops⟩ := h
          constructor
          · rw [← hops]; rfl
          · intro ix' hix' en hen
            rw [← hixs] at hix'
            exact insertEntryAll_entries tn _ cols ixs ixsx hix ix' hix' en hen

theorem insert_never_assigns_rowid_witness :
    c4ops = some [(⟨.insert, rid0, none, some ⟨rid0, false, [.intV 5]⟩⟩ : Operation)] ∧
    ts1.insertRow pg0 ⟨⟨7, 7⟩, false, [.intV 5]⟩ =
      ts1.insertRow pg0 ⟨rid0, false, [.intV 5]⟩ := by
  have h := insert_never_assigns_rowid ts1 "t" ["a"] pg0 [idx0] [] [.intV 5]
    { id := rid0, deleted := false, values := [.intV 5] } ⟨7, 7⟩
  refine ⟨?_, h.1⟩
  have h2 := (h.2 c4pg c4ixs c4ops (by rfl)).1
  simpa using h2



theorem writeBytesP_at (bs : List Nat) :
    ∀ (d : Nat → Nat) (i j : Nat),
      writeBytesP d i bs j =
        if i ≤ j ∧ j < i + bs.length then bs.getD (j - i) 0 else d j := by
  induction bs with
  | nil =>
    intro d i j
    simp only [writeBytesP, List.length_nil]
    rw [if_neg (by omega)]
  | cons b rest ih =>
    intro d i j
    unfold writeBytesP
    rw [ih]
    by_cases h1 : i + 1 ≤ j ∧ j < i + 1 + rest.length
    · rw [if_pos h1,
        if_pos (show i ≤ j ∧ j < i + (b :: rest).length by
          simp only [List.length_cons]; omega)]
      have hji : j - i = (j - (i + 1)) + 1 := by omega
      rw [hji, List.getD_cons_succ]
    · rw [if_neg h1]
      show (if j = i then b else d j) = _
      by_cases h2 : j = i
      · subst h2
        rw [if_pos rfl,
          if_pos (show j ≤ j ∧ j < j + (b :: rest).length by
            simp only [List.length_cons]; omega)]
        simp
      · rw [if_neg h2,
          if_neg (show ¬(i ≤ j ∧ j < i + (b :: rest).length) by
            simp only [List.length_cons]; omega)]

theorem readBytesN_of_bytesAt :
    ∀ (bs : List Nat) (d : Nat → Nat) (off : Nat),
      bytesAt d off bs → readBytesN d off bs.length = bs := by
  intro bs
  induction bs with
  | nil => intro d off _; rfl
  | cons b rest ih =>
    intro d off h
    show d off :: readBytesN d (off + 1) rest.length = b :: rest
    have h0 : d off = b := by
      have := h 0 (by simp)
      simpa using this
    have htail : bytesAt d (off + 1) rest := by
      intro j hj
      have := h (j + 1) (by simp only [List.length_cons]; omega)
      rw [show off + (j + 1) = off + 1 + j by omega] at this
      rw [List.getD_cons_succ] at this
      exact this
    rw [h0, ih d (off + 1) htail]

theorem readU32P_of_bytesAt (d : Nat → Nat) (off n : Nat)
    (h : bytesAt d off (u32le n)) (hn : n < 2 ^ 32) : readU32P d off = n := by
  have h0 := h 0 (by simp [u32le])
  have h1 := h 1 (by simp [u32le])
  have h2 := h 2 (by simp [u32le])
  have h3 := h 3 (by simp [u32le])
  simp only [u32le, List.getD_cons_zero, List.getD_cons_succ, Nat.add_zero] at h0 h1 h2 h3
  unfold readU32P
  rw [h0, h1, h2, h3]
  omega



theorem getD_mem_of_lt {α : Type} (l : List α) (k : Nat) (dflt : α)
    (h : k < l.length) : l.getD k dflt ∈ l := by
  rw [List.getD_eq_getElem?_getD, List.getElem?_eq_getElem h]
  simp only [Option.getD_some]
  exact List.getElem_mem h

theorem sizeRecs_take_succ :
    ∀ (rs : List (List Nat)) (k : Nat), k < rs.length →
      sizeRecs (rs.take (k + 1)) = sizeRecs (rs.take k) + 4 + (rs.getD k []).length := by
  intro rs
  induction rs with
  | nil => intro k hk; simp at hk
  | cons r rest ih =>
    intro k hk
    cases k with
    | zero => simp [sizeRecs]
    | succ k =>
      simp only [List.take_succ_cons, sizeRecs, List.getD_cons_succ]
      rw [ih k (by simpa using hk)]
      omega

theorem recsAt_parts (d : Nat → Nat) :
    ∀ (rs : List (List Nat)) (off k : Nat), recsAt d off rs → k < rs.length →
      bytesAt d (off + sizeRecs (rs.take k)) (u32le (rs.getD k []).length) ∧
      bytesAt d (off + sizeRecs (rs.take k) + 4) (rs.getD k []) := by
  intro rs
  induction rs with
  | nil => intro off k _ hk; simp at hk
  | cons r rest ih =>
    intro off k h hk
    cases k with
    | zero =>
      simp only [List.take_zero, sizeRecs, Nat.add_zero, List.getD_cons_zero]
      exact ⟨h.1, h.2.1⟩
    | succ k =>
      have hrec := ih (off + 4 + r.length) k h.2.2 (by simpa using hk)
      simp only [List.take_succ_cons, List.getD_cons_succ]
      constructor
      · rw [show off + sizeRecs (r :: List.take k rest) =
            off + 4 + r.length + sizeRecs (List.take k rest) from by
          simp only [sizeRecs]; omega]
        exact hrec.1
      · rw [show off + sizeRecs (r :: List.take k rest) + 4 =
            off + 4 + r.length + sizeRecs (List.take k rest) + 4 from by
          simp only [sizeRecs]; omega]
        exact hrec.2

theorem offsetAfter_of_recsAt (d : Nat → Nat) (rs : List (List Nat))
    (h : recsAt d 0 rs) (hlen : ∀ r ∈ rs, r.length < 2 ^ 32) :
    ∀ k, k ≤ rs.length → offsetAfter d k = sizeRecs (rs.take k) := by
  intro k
  induction k with
  | zero => intro _; rfl
  | succ k ih =>
    intro hk
    have hk1 : k < rs.length := by omega
    have hoff := ih (by omega)
    unfold offsetAfter
    dsimp only
    rw [hoff]
    have hparts := recsAt_parts d rs 0 k h hk1
    simp only [Nat.zero_add] at hparts
    have hlenk : (rs.getD k []).length < 2 ^ 32 :=
      hlen _ (getD_mem_of_lt rs k [] hk1)
    rw [readU32P_of_bytesAt d _ _ hparts.1 hlenk, sizeRecs_take_succ rs k hk1]

theorem readRow_of_recsAt (p : Page) (rs : List (List Nat))
    (h : recsAt p.data 0 rs) (hlen : ∀ r ∈ rs, r.length < 2 ^ 32)
    (k : Nat) (hk : k < rs.length) (hcount : k < p.rowCount) :
    p.readRow k = .ok (rs.getD k []) := by
  unfold Page.readRow
  rw [if_neg (by omega)]
  dsimp only
  have hoff := offsetAfter_of_recsAt p.data rs h hlen k (by omega)
  have hparts := recsAt_parts p.data rs 0 k h hk
  simp only [Nat.zero_add] at hparts
  have hlenk : (rs.getD k []).length < 2 ^ 32 :=
    hlen _ (getD_mem_of_lt rs k [] hk)
  rw [hoff, readU32P_of_bytesAt _ _ _ hparts.1 hlenk,
    readBytesN_of_bytesAt _ _ _ hparts.2]



theorem getD_take_lt (rs : List (List Nat)) (k j : Nat) (h : j < k) :
    (rs.take k).getD j [] = rs.getD j [] := by
  rw [List.getD_eq_getElem?_getD, List.getD_eq_getElem?_getD, List.getElem?_take,
    if_pos h]

theorem sizeRecs_append :
    ∀ (rs1 rs2 : List (List Nat)), sizeRecs (rs1 ++ rs2) = sizeRecs rs1 + sizeRecs rs2 := by
  intro rs1 rs2
  induction rs1 with
  | nil => simp [sizeRecs]
  | cons r rest ih =>
    simp only [List.cons_append, sizeRecs, List.append_eq, ih]
    omega

theorem recsAt_congr (d d1 : Nat → Nat) :
    ∀ (rs : List (List Nat)) (off : Nat),
      recsAt d off rs →
      (∀ j, off ≤ j → j < off + sizeRecs rs → d1 j = d j) →
      recsAt d1 off rs := by
  intro rs
  induction rs with
  | nil => intro off _ _; trivial
  | cons r rest ih =>
    intro off h hagree
    have hu4 : (u32le r.length).length = 4 := by simp [u32le]
    refine ⟨?_, ?_, ?_⟩
    · intro j hj
      rw [hu4] at hj
      rw [hagree (off + j) (by omega) (by simp only [sizeRecs]; omega)]
      exact h.1 j (by rw [hu4]; omega)
    · intro j hj
      rw [hagree (off + 4 + j) (by omega) (by simp only [sizeRecs]; omega)]
      exact h.2.1 j hj
    · apply ih (off + 4 + r.length) h.2.2
      intro j hj1 hj2
      exact hagree j (by omega) (by simp only [sizeRecs]; omega)

theorem recsAt_append (d : Nat → Nat) :
    ∀ (rs1 rs2 : List (List Nat)) (off : Nat),
      recsAt d off (rs1 ++ rs2) ↔
        recsAt d off rs1 ∧ recsAt d (off + sizeRecs rs1) rs2 := by
  intro rs1
  induction rs1 with
  | nil =>
    intro rs2 off
    simp [recsAt, sizeRecs]
  | cons r rest ih =>
    intro rs2 off
    simp only [List.cons_append, recsAt, sizeRecs, List.append_eq]
    constructor
    · rintro ⟨h1, h2, h3⟩
      rw [ih] at h3
      refine ⟨⟨h1, h2, h3.1⟩, ?_⟩
      rw [show off + (4 + r.length + sizeRecs rest) =
        off + 4 + r.length + sizeRecs rest by omega]
      exact h3.2
    · rintro ⟨⟨h1, h2, h3⟩, h4⟩
      refine ⟨h1, h2, ?_⟩
      rw [ih]
      refine ⟨h3, ?_⟩
      rw [show off + 4 + r.length + sizeRecs rest =
        off + (4 + r.length + sizeRecs rest) by omega]
      exact h4

theorem recs_decomp (rs : List (List Nat)) (k : Nat) (hk : k < rs.length) :
    rs = rs.take k ++ rs.getD k [] :: rs.drop (k + 1) := by
  conv_lhs => rw [← List.take_append_drop k rs]
  congr 1
  rw [List.getD_eq_getElem?_getD, List.getElem?_eq_getElem hk]
  simp only [Option.getD_some]
  exact List.drop_eq_getElem_cons hk

theorem set_decomp (rs : List (List Nat)) (k : Nat) (b : List Nat)
    (hk : k < rs.length) :
    rs.set k b = rs.take k ++ b :: rs.drop (k + 1) := by
  rw [List.set_eq_take_append_cons_drop, if_pos hk]



theorem updateRow_ok (p : Page) (rs : List (List Nat)) (k : Nat) (b : List Nat)
    (hrecs : recsAt p.data 0 rs) (hlen : ∀ r ∈ rs, r.length < 2 ^ 32)
    (hcount : p.rowCount = rs.length) (hk : k < rs.length)
    (hble : b.length ≤ (rs.getD k []).length) :
    ∃ d3 : Nat → Nat, p.updateRow k b = .ok { p with data := d3 } ∧
      bytesAt d3 (sizeRecs (rs.take k)) (u32le b.length) ∧
      bytesAt d3 (sizeRecs (rs.take k) + 4) b ∧
      (∀ j, j < sizeRecs (rs.take k) → d3 j = p.data j) ∧
      (∀ j, sizeRecs (rs.take k) + 4 + (rs.getD k []).length ≤ j → d3 j = p.data j) := by
  have hoff := offsetAfter_of_recsAt p.data rs hrecs hlen k (le_of_lt hk)
  have hparts := recsAt_parts p.data rs 0 k hrecs hk
  simp only [Nat.zero_add] at hparts
  have hlenk : (rs.getD k []).length < 2 ^ 32 := hlen _ (getD_mem_of_lt rs k [] hk)
  have hu4 : ∀ m : Nat, (u32le m).length = 4 := fun m => by simp [u32le]
  unfold Page.updateRow
  rw [if_neg (by omega)]
  dsimp only
  rw [hoff, readU32P_of_bytesAt _ _ _ hparts.1 hlenk, if_neg (by omega)]
  refine ⟨_, rfl, ?_, ?_, ?_, ?_⟩
  · intro j hj
    rw [hu4] at hj
    rw [writeBytesP_at, writeBytesP_at, writeBytesP_at,
      if_neg (by rw [List.length_replicate]; omega),
      if_neg (by omega),
      if_pos (by rw [hu4]; omega),
      show sizeRecs (rs.take k) + j - sizeRecs (rs.take k) = j by omega]
  · intro j hj
    rw [writeBytesP_at, writeBytesP_at,
      if_neg (by rw [List.length_replicate]; omega),
      if_pos (by omega),
      show sizeRecs (rs.take k) + 4 + j - (sizeRecs (rs.take k) + 4) = j by omega]
  · intro j hj
    rw [writeBytesP_at, writeBytesP_at, writeBytesP_at,
      if_neg (by rw [List.length_replicate]; omega),
      if_neg (by omega),
      if_neg (by rw [hu4]; omega)]
  · intro j hj
    rw [writeBytesP_at, writeBytesP_at, writeBytesP_at,
      if_neg (by rw [List.length_replicate]; omega),
      if_neg (by omega),
      if_neg (by rw [hu4]; omega)]

theorem updateRow_recsAt_set (p : Page) (rs : List (List Nat)) (k : Nat)
    (b : List Nat)
    (hrecs : recsAt p.data 0 rs) (hlen : ∀ r ∈ rs, r.length < 2 ^ 32)
    (hcount : p.rowCount = rs.length) (hk : k < rs.length)
    (hbeq : b.length = (rs.getD k []).length) :
    ∃ d3 : Nat → Nat, p.updateRow k b = .ok { p with data := d3 } ∧
      recsAt d3 0 (rs.set k b) := by
  obtain ⟨d3, hupd, hpre, hdat, hlow, hhigh⟩ :=
    updateRow_ok p rs k b hrecs hlen hcount hk (le_of_eq hbeq)
  refine ⟨d3, hupd, ?_⟩
  have hsplit := (recsAt_append p.data (rs.take k)
    (rs.getD k [] :: rs.drop (k + 1)) 0).mp (by rw [← recs_decomp rs k hk]; exact hrecs)
  have hsz : sizeRecs (rs.take k) = 0 + sizeRecs (rs.take k) := by omega
  rw [set_decomp rs k b hk, recsAt_append]
  constructor
  · exact recsAt_congr p.data d3 (rs.take k) 0 hsplit.1
      (fun j _ h2 => hlow j (by omega))
  · refine ⟨?_, ?_, ?_⟩
    · intro j hj
      rw [show 0 + sizeRecs (rs.take k) + j = sizeRecs (rs.take k) + j by omega]
      exact hpre j hj
    · intro j hj
      rw [show 0 + sizeRecs (rs.take k) + 4 + j = sizeRecs (rs.take k) + 4 + j by omega]
      exact hdat j hj
    · have hold := hsplit.2.2.2
      -- hold : recsAt p.data (0 + sizeRecs (rs.take k) + 4 + (rs.getD k []).length) (rs.drop (k+1))
      have heq : 0 + sizeRecs (rs.take k) + 4 + b.length =
          0 + sizeRecs (rs.take k) + 4 + (rs.getD k []).length := by omega
      rw [heq]
      exact recsAt_congr p.data d3 (rs.drop (k + 1)) _ hold
        (fun j h1 _ => hhigh j (by omega))



/-- **C6** (amended) — for a well-formed page holding records `rs` and
`len(bytes) ≤` the stored length of record `idx`, `UpdateRow` succeeds,
afterwards `ReadRow(idx)` returns exactly `bytes` and every record
before `idx` reads unchanged; the frame for records *after* `idx`
holds exactly in the equal-length case (`updateRow_shrink_corrupts_later_row`
refutes it for strictly shorter payloads, whose offset shift corrupts
the parse of the following records). -/
theorem updateRow_inplace_frame (p : Page) (rs : List (List Nat)) (k : Nat)
    (b : List Nat)
    (hrecs : recsAt p.data 0 rs) (hlen : ∀ r ∈ rs, r.length < 2 ^ 32)
    (hcount : p.rowCount = rs.length) (hk : k < rs.length)
    (hble : b.length ≤ (rs.getD k []).length) :
    ((p.updateRow k b).isOk = true) ∧
    (∀ p1, p.updateRow k b = .ok p1 →
      p1.readRow k = .ok b ∧
      (∀ j, j < k → p1.readRow j = p.readRow j) ∧
      (b.length = (rs.getD k []).length →
        ∀ j, j < rs.length → j ≠ k → p1.readRow j = p.readRow j)) := by
  obtain ⟨d3, hupd, hpre, hdat, hlow, hhigh⟩ :=
    updateRow_ok p rs k b hrecs hlen hcount hk hble
  have htklen : (rs.take k).length = k := by
    rw [List.length_take]; omega
  constructor
  · rw [hupd]; rfl
  · intro p1 hupd1
    rw [hupd] at hupd1
    have hp1 : p1 = { p with data := d3 } := by
      cases hupd1; rfl
    subst hp1
    -- the take-k prefix survives untouched under d3
    have hsplit := (recsAt_append p.data (rs.take k)
      (rs.getD k [] :: rs.drop (k + 1)) 0).mp
      (by rw [← recs_decomp rs k hk]; exact hrecs)
    have htake : recsAt d3 0 (rs.take k) :=
      recsAt_congr p.data d3 (rs.take k) 0 hsplit.1 (fun j _ h2 => hlow j (by omega))
    -- a record list describing d3 up to position k: take k rs ++ [b]
    have hnew : recsAt d3 0 (rs.take k ++ [b]) := by
      rw [recsAt_append]
      refine ⟨htake, ?_, ?_, trivial⟩
      · intro j hj
        rw [show (0 : Nat) + sizeRecs (rs.take k) + j = sizeRecs (rs.take k) + j
          by omega]
        exact hpre j hj
      · intro j hj
        rw [show (0 : Nat) + sizeRecs (rs.take k) + 4 + j =
          sizeRecs (rs.take k) + 4 + j by omega]
        exact hdat j hj
    have hlen1 : ∀ r ∈ rs.take k ++ [b], r.length < 2 ^ 32 := by
      intro r hr
      rcases List.mem_append.mp hr with hr | hr
      · exact hlen r (List.mem_of_mem_take hr)
      · rcases List.mem_singleton.mp hr with rfl
        have := hlen _ (getD_mem_of_lt rs k [] hk)
        omega
    have hlen2 : (rs.take k ++ [b]).length = k + 1 := by
      simp [htklen]
    refine ⟨?_, ?_, ?_⟩
    · have := readRow_of_recsAt { p with data := d3 } (rs.take k ++ [b])
        hnew hlen1 k (by omega) (by simp only; omega)
      rw [this, List.getD_append_right _ _ _ _ (by omega),
        show k - (rs.take k).length = 0 by omega]
      rfl
    · intro j hj
      have h1 := readRow_of_recsAt { p with data := d3 } (rs.take k ++ [b])
        hnew hlen1 j (by omega) (by simp only; omega)
      have h2 := readRow_of_recsAt p rs hrecs hlen j (by omega) (by omega)
      rw [h1, h2, List.getD_append _ _ _ _ (by omega), getD_take_lt rs k j hj]
    · intro hbeq j hjlen hjne
      obtain ⟨d4, hupd4, hset⟩ :=
        updateRow_recsAt_set p rs k b hrecs hlen hcount hk hbeq
      rw [hupd] at hupd4
      have hd : d4 = d3 := by cases hupd4; rfl
      rw [hd] at hset
      have hlenset : ∀ r ∈ rs.set k b, r.length < 2 ^ 32 := by
        intro r hr
        rw [set_decomp rs k b hk] at hr
        rcases List.mem_append.mp hr with hr | hr
        · exact hlen r (List.mem_of_mem_take hr)
        · rcases List.mem_cons.mp hr with rfl | hr
          · have := hlen _ (getD_mem_of_lt rs k [] hk)
            omega
          · exact hlen r (List.mem_of_mem_drop hr)
      have h1 := readRow_of_recsAt { p with data := d3 } (rs.set k b)
        hset hlenset j (by rw [List.length_set]; omega) (by simp only; omega)
      have h2 := readRow_of_recsAt p rs hrecs hlen j hjlen (by omega)
      rw [h1, h2]
      congr 1
      rw [List.getD_eq_getElem?_getD, List.getD_eq_getElem?_getD,
        List.getElem?_set, if_neg (fun hc => hjne hc.symm)]


/-- **C6**'s counterexample — shrinking record 0 of a two-record page
from `[7,7]` to `[8]` changes what `ReadRow(1)` returns (the claim
asserts rows `j ≠ idx` are unchanged for any `len(bytes) ≤ old`). -/
theorem updateRow_shrink_corrupts_later_row :
    (do
      let p1 ← pageC6.updateRow 0 [8]
      p1.readRow 1 : Except String (List Nat)) ≠ pageC6.readRow 1 := by decide

theorem updateRow_inplace_frame_witness :
    pageC6upd.readRow 0 = .ok [8, 8] ∧ pageC6upd.readRow 1 = pageC6.readRow 1 := by
  have h := updateRow_inplace_frame pageC6 [[7, 7], [9]] 0 [8, 8]
    (by decide) (by decide) (by rfl) (by decide) (by decide)
  obtain ⟨-, h2⟩ := h
  obtain ⟨ha, -, hc⟩ := h2 pageC6upd (by rfl)
  exact ⟨ha, hc (by decide) 1 (by decide) (by decide)⟩



theorem toUInt64_lt (v : Int) : toUInt64 v < 2 ^ 64 := by
  unfold toUInt64
  have h1 : v % (2 ^ 64 : Int) < 2 ^ 64 := Int.emod_lt_of_pos v (by norm_num)
  omega

theorem goFloat64ToUint64_lt (bits : Nat) : goFloat64ToUint64 bits < 2 ^ 64 := by
  unfold goFloat64ToUint64
  split_ifs <;> omega

theorem readU64_cons_u64le (t x : Nat) (rest : List Nat) (hx : x < 2 ^ 64) :
    readU64 (t :: (u64le x ++ rest)) 1 = x := by
  simp only [readU64, readByte, u64le, List.cons_append, List.getD_cons_succ,
    List.getD_cons_zero]
  omega

theorem readU32_cons_u32le (t x : Nat) (rest : List Nat) (hx : x < 2 ^ 32) :
    readU32 (t :: (u32le x ++ rest)) 1 = x := by
  simp only [readU32, readByte, u32le, List.cons_append, List.getD_cons_succ,
    List.getD_cons_zero]
  omega

theorem deserializeValue_serializeValue (v : Value) (rest : List Nat)
    (hs : ∀ s, v = .textV s → s.length < 2 ^ 32) :
    deserializeValue (serializeValue v ++ rest) =
      .ok (rtValue v, (serializeValue v).length) := by
  cases v with
  | intV x =>
    have hlt := toUInt64_lt x
    simp only [serializeValue, List.cons_append, rtValue]
    unfold deserializeValue
    have hlen9 : (0 :: (u64le (toUInt64 x) ++ rest)).length = 9 + rest.length := by
      simp [u64le]; try omega
    rw [hlen9, if_neg (by omega)]
    simp only [readByte, List.getD_cons_zero]
    rw [if_neg (by omega)]
    rw [readU64_cons_u64le _ _ _ hlt]
    simp [u64le]
  | dateV x =>
    have hlt := toUInt64_lt x
    simp only [serializeValue, List.cons_append, rtValue]
    unfold deserializeValue
    have hlen9 : (4 :: (u64le (toUInt64 x) ++ rest)).length = 9 + rest.length := by
      simp [u64le]; try omega
    rw [hlen9, if_neg (by omega)]
    simp only [readByte, List.getD_cons_zero]
    rw [if_neg (by omega)]
    rw [readU64_cons_u64le _ _ _ hlt]
    simp [u64le]
  | floatV bits =>
    have hlt := goFloat64ToUint64_lt bits
    simp only [serializeValue, List.cons_append, rtValue]
    unfold deserializeValue
    have hlen9 : (3 :: (u64le (goFloat64ToUint64 bits) ++ rest)).length =
        9 + rest.length := by simp [u64le]; try omega
    rw [hlen9, if_neg (by omega)]
    simp only [readByte, List.getD_cons_zero]
    rw [if_neg (by omega)]
    rw [readU64_cons_u64le _ _ _ hlt]
    simp [u64le]
  | boolV b =>
    simp only [serializeValue, List.cons_append, List.nil_append, rtValue]
    unfold deserializeValue
    have hlen2 : (2 :: (if b = true then 1 else 0) :: rest).length = 2 + rest.length := by
      simp; try omega
    rw [hlen2, if_neg (by omega)]
    simp only [readByte, List.getD_cons_zero, List.getD_cons_succ]
    rw [if_neg (by omega)]
    cases b <;> simp
  | textV s =>
    have hslt : s.length < 2 ^ 32 := hs s rfl
    simp only [serializeValue, List.cons_append, List.append_assoc, rtValue]
    unfold deserializeValue
    have hlen : (1 :: (u32le s.length ++ (s ++ rest))).length =
        5 + s.length + rest.length := by simp [u32le]; try omega
    rw [hlen, if_neg (by omega)]
    simp only [readByte, List.getD_cons_zero]
    rw [if_neg (by omega)]
    rw [readU32_cons_u32le _ _ _ hslt]
    rw [if_neg (by omega)]
    have hdrop : (1 :: (u32le s.length ++ (s ++ rest))).drop 5 = s ++ rest := by
      simp only [List.drop_succ_cons]
      rw [show (4 : Nat) = (u32le s.length).length from by simp [u32le],
        List.drop_left]
    rw [hdrop, List.take_left]
    simp [u32le]
    try omega



theorem length_serializeValue_rtValue (v : Value) :
    (serializeValue (rtValue v)).length = (serializeValue v).length := by
  cases v <;> simp [rtValue, serializeValue, u64le, u32le]

theorem deserializeValuesLoop_serialize :
    ∀ (vs : List Value) (pre rest : List Nat),
      (∀ s, Value.textV s ∈ vs → s.length < 2 ^ 32) →
      deserializeValuesLoop (pre ++ ((vs.map serializeValue).flatten ++ rest))
        pre.length vs.length =
      .ok (vs.map rtValue, pre.length + ((vs.map serializeValue).flatten).length) := by
  intro vs
  induction vs with
  | nil =>
    intro pre rest _
    simp [deserializeValuesLoop]
  | cons v vt ih =>
    intro pre rest hs
    have hflat : (List.map serializeValue (v :: vt)).flatten =
        serializeValue v ++ (List.map serializeValue vt).flatten := by
      simp
    have hdata : pre ++ ((List.map serializeValue (v :: vt)).flatten ++ rest) =
        (pre ++ serializeValue v) ++ ((List.map serializeValue vt).flatten ++ rest) := by
      rw [hflat]
      simp [List.append_assoc]
    simp only [List.length_cons]
    unfold deserializeValuesLoop
    have hdrop : ((pre ++ serializeValue v) ++
        ((List.map serializeValue vt).flatten ++ rest)).drop pre.length =
        serializeValue v ++ ((List.map serializeValue vt).flatten ++ rest) := by
      rw [List.append_assoc, List.drop_left]
    rw [hdata, hdrop,
      deserializeValue_serializeValue v _
        (fun s hsv => hs s (hsv ▸ List.mem_cons_self v vt))]
    simp only [Bind.bind, Except.bind]
    have hlen : pre.length + (serializeValue v).length = (pre ++ serializeValue v).length := by
      simp
    rw [hlen, ih (pre ++ serializeValue v) rest
      (fun s hmem => hs s (List.mem_cons_of_mem _ hmem))]
    simp only [Except.ok.injEq, Prod.mk.injEq, List.map_cons, hflat]
    refine ⟨trivial, ?_⟩
    simp [List.length_append]
    try omega



theorem serializedValues_length_rt :
    ∀ vs : List Value,
      (((vs.map rtValue).map serializeValue).flatten).length =
        ((vs.map serializeValue).flatten).length := by
  intro vs
  induction vs with
  | nil => rfl
  | cons v vt ih =>
    simp only [List.map_cons, List.flatten_cons, List.length_append, ih,
      length_serializeValue_rtValue v]

theorem deserializeRow_serializeRow (r : Row) (hrepr : representableRow r) :
    deserializeRow (serializeRow r) r.values.length =
      .ok ⟨rid0, r.deleted, r.values.map rtValue⟩ := by
  obtain ⟨hn, hs⟩ := hrepr
  unfold serializeRow deserializeRow
  have hlen3 : ((if r.deleted then 1 else 0) ::
      (u16le r.values.length ++ (r.values.map serializeValue).flatten)).length =
      3 + ((r.values.map serializeValue).flatten).length := by
    simp [u16le]
    try omega
  rw [hlen3, if_neg (by omega)]
  dsimp only
  have h16 : readU16 ((if r.deleted then 1 else 0) ::
      (u16le r.values.length ++ (r.values.map serializeValue).flatten)) 1 =
      r.values.length := by
    simp only [readU16, readByte, u16le, List.cons_append, List.getD_cons_succ,
      List.getD_cons_zero]
    omega
  rw [h16, if_neg (by simp)]
  have hloop := deserializeValuesLoop_serialize r.values
    ((if r.deleted then 1 else 0) :: u16le r.values.length) [] hs
  have hpre3 : ((if r.deleted then 1 else 0) :: u16le r.values.length).length = 3 := by
    simp [u16le]
  rw [hpre3] at hloop
  have hshape : ((if r.deleted then 1 else 0) :: u16le r.values.length) ++
      ((r.values.map serializeValue).flatten ++ []) =
      (if r.deleted then 1 else 0) ::
        (u16le r.values.length ++ (r.values.map serializeValue).flatten) := by
    simp
  rw [hshape] at hloop
  rw [hloop]
  simp only [Bind.bind, Except.bind, Except.ok.injEq]
  have : readByte ((if r.deleted then 1 else 0) ::
      (u16le r.values.length ++ (r.values.map serializeValue).flatten)) 0 =
      (if r.deleted then 1 else 0) := by simp [readByte]
  rw [this]
  cases hd : r.deleted <;> simp

/-- **C9** — for a stored row (record `k` of a well-formed page is
`serializeRow r` for a representable row `r`), `MarkRowDeleted`'s
re-serialisation with the tombstone flipped has exactly the stored
length, so the in-place `UpdateRow` cannot hit the too-large branch
and the whole operation succeeds. -/
theorem markRowDeleted_always_fits (t : TableStorage) (pg : Pager) (p : Page)
    (rs : List (List Nat)) (r : Row) (pid k : Nat)
    (hpid : pg.pages[pid]? = some p)
    (hrecs : recsAt p.data 0 rs)
    (hlen : ∀ rec ∈ rs, rec.length < 2 ^ 32)
    (hcount : p.rowCount = rs.length)
    (hk : k < rs.length)
    (hrec : rs.getD k [] = serializeRow r)
    (hcols : t.numColumns = r.values.length)
    (hrepr : representableRow r) :
    (t.markRowDeleted pg ⟨pid, k⟩).isOk = true := by
  have hlength : (serializeRow ⟨rid0, true, r.values.map rtValue⟩).length =
      (rs.getD k []).length := by
    rw [hrec]
    show (serializeRow ⟨rid0, true, r.values.map rtValue⟩).length =
      (serializeRow ⟨r.id, r.deleted, r.values⟩).length
    simp only [serializeRow, List.length_cons, List.length_append,
      List.length_map, u16le]
    rw [serializedValues_length_rt r.values]
  unfold TableStorage.markRowDeleted Pager.getPage
  dsimp only
  rw [hpid]
  simp only [Bind.bind, Except.bind]
  rw [readRow_of_recsAt p rs hrecs hlen k hk (by omega)]
  rw [hrec, hcols]
  dsimp only
  rw [deserializeRow_serializeRow r hrepr]
  dsimp only
  obtain ⟨d3, hupd, -, -, -, -⟩ := updateRow_ok p rs k
    (serializeRow ⟨rid0, true, r.values.map rtValue⟩) hrecs hlen hcount hk
    (le_of_eq hlength)
  rw [hupd]
  rfl


theorem markRowDeleted_always_fits_witness :
    (ts1.markRowDeleted ⟨[pageC9]⟩ ⟨0, 0⟩).isOk = true :=
  markRowDeleted_always_fits ts1 ⟨[pageC9]⟩ pageC9 [serializeRow rowC9] rowC9 0 0
    rfl (by decide) (by decide) rfl (by decide) rfl rfl
    ⟨by decide, fun s hmem => by simp [rowC9] at hmem⟩


/-! ## C7: the per-kind comparisons form a total order on comparable keys -/

theorem bytesLt_cons_eq (x y : Nat) (as bs : List Nat) :
    bytesLt (x :: as) (y :: bs) =
      if x < y then true else if y < x then false else bytesLt as bs := rfl

theorem bytesLt_cons (x y : Nat) (as bs : List Nat) :
    bytesLt (x :: as) (y :: bs) = true ↔ x < y ∨ (x = y ∧ bytesLt as bs = true) := by
  rw [bytesLt_cons_eq]
  by_cases h1 : x < y
  · rw [if_pos h1]
    exact iff_of_true rfl (Or.inl h1)
  · by_cases h2 : y < x
    · rw [if_neg h1, if_pos h2]
      constructor
      · intro h; simp at h
      · rintro (h | ⟨h, _⟩) <;> omega
    · have hxy : x = y := by omega
      rw [if_neg h1, if_neg h2]
      constructor
      · intro h; exact Or.inr ⟨hxy, h⟩
      · rintro (h | ⟨_, h⟩)
        · omega
        · exact h

theorem bytesLt_irrefl (a : List Nat) : bytesLt a a = false := by
  induction a with
  | nil => rfl
  | cons x as ih =>
    rw [bytesLt_cons_eq, if_neg (Nat.lt_irrefl x), if_neg (Nat.lt_irrefl x)]
    exact ih

theorem bytesLt_eq_of_not_lt (a b : List Nat) (h1 : bytesLt a b = false)
    (h2 : bytesLt b a = false) : a = b := by
  induction a generalizing b with
  | nil =>
    cases b with
    | nil => rfl
    | cons y bs => simp [bytesLt] at h1
  | cons x as ih =>
    cases b with
    | nil => simp [bytesLt] at h2
    | cons y bs =>
      rw [bytesLt_cons_eq] at h1 h2
      by_cases hxy : x < y
      · rw [if_pos hxy] at h1; simp at h1
      · by_cases hyx : y < x
        · rw [if_pos hyx] at h2; simp at h2
        · have hx : x = y := by omega
          rw [if_neg hxy, if_neg hyx] at h1
          rw [if_neg hyx, if_neg hxy] at h2
          rw [hx, ih bs h1 h2]

theorem bytesLt_trans (a b c : List Nat) (h1 : bytesLt a b = true)
    (h2 : bytesLt b c = true) : bytesLt a c = true := by
  induction a generalizing b c with
  | nil =>
    cases c with
    | cons z cs => rfl
    | nil =>
      cases b with
      | nil => simp [bytesLt] at h1
      | cons y bs => simp [bytesLt] at h2
  | cons x as ih =>
    cases b with
    | nil => simp [bytesLt] at h1
    | cons y bs =>
      cases c with
      | nil => simp [bytesLt] at h2
      | cons z cs =>
        rw [bytesLt_cons] at h1 h2 ⊢
        rcases h1 with h1 | ⟨hxy, h1⟩
        · rcases h2 with h2 | ⟨hyz, h2⟩
          · exact Or.inl (by omega)
          · exact Or.inl (by omega)
        · rcases h2 with h2 | ⟨hyz, h2⟩
          · exact Or.inl (by omega)
          · exact Or.inr ⟨by omega, ih bs cs h1 h2⟩

theorem keyLtB_trans (x y z : Int ⊕ List Nat) (h1 : keyLtB x y = true)
    (h2 : keyLtB y z = true) : keyLtB x z = true := by
  cases x <;> cases y <;> cases z <;>
    simp only [keyLtB, decide_eq_true_eq] at h1 h2 ⊢ <;>
    first
      | omega
      | exact bytesLt_trans _ _ _ h1 h2
      | simp at h1
      | simp at h2

theorem ridLess_rid0 (r : RowID) : ridLess r rid0 = false := by
  simp only [ridLess, rid0]
  split <;> simp

theorem f64lt_eq_decide (a b : Nat) (ha : a < 2 ^ 64) (hb : b < 2 ^ 64)
    (hna : f64isNaN a = false) (hnb : f64isNaN b = false) :
    f64lt a b = decide (intOfF64 a < intOfF64 b) := by
  obtain ⟨ha1, ha2, ha3⟩ :
      a = f64sign a * 2 ^ 63 + f64mag a ∧ f64sign a < 2 ∧ f64mag a < 2 ^ 63 := by
    unfold f64sign f64mag; omega
  obtain ⟨hb1, hb2, hb3⟩ :
      b = f64sign b * 2 ^ 63 + f64mag b ∧ f64sign b < 2 ∧ f64mag b < 2 ^ 63 := by
    unfold f64sign f64mag; omega
  have hsa : f64sign a = 0 ∨ f64sign a = 1 := by omega
  have hsb : f64sign b = 0 ∨ f64sign b = 1 := by omega
  unfold f64lt intOfF64
  rw [hna, hnb]
  rcases hsa with hsa | hsa <;> rcases hsb with hsb | hsb <;>
    by_cases hma : f64mag a = 0 <;> by_cases hmb : f64mag b = 0 <;>
    simp [hsa, hsb, hma, hmb] <;> omega

theorem f64eq_eq_decide (a b : Nat) (ha : a < 2 ^ 64) (hb : b < 2 ^ 64)
    (hna : f64isNaN a = false) (hnb : f64isNaN b = false) :
    f64eq a b = decide (intOfF64 a = intOfF64 b) := by
  obtain ⟨ha1, ha2, ha3⟩ :
      a = f64sign a * 2 ^ 63 + f64mag a ∧ f64sign a < 2 ∧ f64mag a < 2 ^ 63 := by
    unfold f64sign f64mag; omega
  obtain ⟨hb1, hb2, hb3⟩ :
      b = f64sign b * 2 ^ 63 + f64mag b ∧ f64sign b < 2 ∧ f64mag b < 2 ^ 63 := by
    unfold f64sign f64mag; omega
  have hsa : f64sign a = 0 ∨ f64sign a = 1 := by omega
  have hsb : f64sign b = 0 ∨ f64sign b = 1 := by omega
  unfold f64eq intOfF64
  rw [hna, hnb]
  rcases hsa with hsa | hsa <;> rcases hsb with hsb | hsb <;>
    by_cases hma : f64mag a = 0 <;> by_cases hmb : f64mag b = 0 <;>
    simp [hsa, hsb, hma, hmb] <;> omega

theorem bytesLt_asymm (a b : List Nat) (h : bytesLt a b = true) :
    bytesLt b a = false := by
  induction a generalizing b with
  | nil =>
    cases b with
    | nil => simp [bytesLt] at h
    | cons y bs => rfl
  | cons x as ih =>
    cases b with
    | nil => simp [bytesLt] at h
    | cons y bs =>
      rw [bytesLt_cons] at h
      rw [bytesLt_cons_eq]
      rcases h with h | ⟨hxy, h⟩
      · rw [if_neg (by omega : ¬ y < x), if_pos h]
      · rw [if_neg (by omega : ¬ y < x), if_neg (by omega : ¬ x < y)]
        exact ih bs h

theorem comparableKey_int (v : Value) (h : comparableKey .int v = true) :
    ∃ n : Int, v = .intV n := by
  cases v <;> simp [comparableKey, Value.kind] at h <;> exact ⟨_, rfl⟩

theorem comparableKey_text (v : Value) (h : comparableKey .text v = true) :
    ∃ s : List Nat, v = .textV s := by
  cases v <;> simp [comparableKey, Value.kind] at h <;> exact ⟨_, rfl⟩

theorem comparableKey_bool (v : Value) (h : comparableKey .boolean v = true) :
    ∃ x : Bool, v = .boolV x := by
  cases v <;> simp [comparableKey, Value.kind] at h <;> exact ⟨_, rfl⟩

theorem comparableKey_date (v : Value) (h : comparableKey .date v = true) :
    ∃ t : Int, v = .dateV t := by
  cases v <;> simp [comparableKey, Value.kind] at h <;> exact ⟨_, rfl⟩

theorem comparableKey_float (v : Value) (h : comparableKey .float v = true) :
    ∃ bits : Nat, v = .floatV bits ∧ bits < 2 ^ 64 ∧ f64isNaN bits = false := by
  cases v <;> simp [comparableKey, Value.kind] at h
  exact ⟨_, rfl, h.1, h.2⟩

theorem cmpV_lt_iff (d : DataType) (a k : Value)
    (ha : comparableKey d a = true) (hk : comparableKey d k = true) :
    cmpV a k < 0 ↔ keyLtB (orderKey a) (orderKey k) = true := by
  cases d with
  | int =>
    obtain ⟨x, hx⟩ := comparableKey_int _ ha
    obtain ⟨y, hy⟩ := comparableKey_int _ hk
    subst hx hy
    simp only [cmpV, orderKey, keyLtB, decide_eq_true_eq]
    split_ifs <;> simp_all <;> omega
  | text =>
    obtain ⟨x, hx⟩ := comparableKey_text _ ha
    obtain ⟨y, hy⟩ := comparableKey_text _ hk
    subst hx hy
    simp only [cmpV, orderKey, keyLtB]
    split_ifs <;> simp_all
  | boolean =>
    obtain ⟨x, hx⟩ := comparableKey_bool _ ha
    obtain ⟨y, hy⟩ := comparableKey_bool _ hk
    subst hx hy
    cases x <;> cases y <;> simp [cmpV, orderKey, keyLtB]
  | date =>
    obtain ⟨x, hx⟩ := comparableKey_date _ ha
    obtain ⟨y, hy⟩ := comparableKey_date _ hk
    subst hx hy
    simp only [cmpV, orderKey, keyLtB, decide_eq_true_eq]
    split_ifs <;> simp_all <;> omega
  | float =>
    obtain ⟨x, hx, hx64, hxn⟩ := comparableKey_float _ ha
    obtain ⟨y, hy, hy64, hyn⟩ := comparableKey_float _ hk
    subst hx hy
    simp only [cmpV, orderKey, keyLtB, decide_eq_true_eq]
    rw [f64lt_eq_decide x y hx64 hy64 hxn hyn, f64lt_eq_decide y x hy64 hx64 hyn hxn]
    split_ifs <;> simp_all <;> omega

theorem cmpV_eq_iff (d : DataType) (a k : Value)
    (ha : comparableKey d a = true) (hk : comparableKey d k = true) :
    cmpV a k = 0 ↔ orderKey a = orderKey k := by
  cases d with
  | int =>
    obtain ⟨x, hx⟩ := comparableKey_int _ ha
    obtain ⟨y, hy⟩ := comparableKey_int _ hk
    subst hx hy
    simp only [cmpV, orderKey, Sum.inl.injEq]
    split_ifs <;> simp_all <;> omega
  | text =>
    obtain ⟨x, hx⟩ := comparableKey_text _ ha
    obtain ⟨y, hy⟩ := comparableKey_text _ hk
    subst hx hy
    simp only [cmpV, orderKey, Sum.inr.injEq]
    split_ifs with h1 h2
    · constructor
      · intro h; simp at h
      · intro h; subst h; rw [bytesLt_irrefl] at h1; simp at h1
    · constructor
      · intro h; simp at h
      · intro h; subst h; rw [bytesLt_irrefl] at h2; simp at h2
    · constructor
      · intro _
        exact bytesLt_eq_of_not_lt x y (by revert h1; cases bytesLt x y <;> simp)
          (by revert h2; cases bytesLt y x <;> simp)
      · intro _; rfl
  | boolean =>
    obtain ⟨x, hx⟩ := comparableKey_bool _ ha
    obtain ⟨y, hy⟩ := comparableKey_bool _ hk
    subst hx hy
    cases x <;> cases y <;> simp [cmpV, orderKey]
  | date =>
    obtain ⟨x, hx⟩ := comparableKey_date _ ha
    obtain ⟨y, hy⟩ := comparableKey_date _ hk
    subst hx hy
    simp only [cmpV, orderKey, Sum.inl.injEq]
    split_ifs <;> simp_all <;> omega
  | float =>
    obtain ⟨x, hx, hx64, hxn⟩ := comparableKey_float _ ha
    obtain ⟨y, hy, hy64, hyn⟩ := comparableKey_float _ hk
    subst hx hy
    simp only [cmpV, orderKey, Sum.inl.injEq]
    rw [f64lt_eq_decide x y hx64 hy64 hxn hyn, f64lt_eq_decide y x hy64 hx64 hyn hxn]
    split_ifs <;> simp_all <;> omega

theorem cmpV_gt_iff (d : DataType) (a k : Value)
    (ha : comparableKey d a = true) (hk : comparableKey d k = true) :
    0 < cmpV a k ↔ keyLtB (orderKey k) (orderKey a) = true := by
  cases d with
  | int =>
    obtain ⟨x, hx⟩ := comparableKey_int _ ha
    obtain ⟨y, hy⟩ := comparableKey_int _ hk
    subst hx hy
    simp only [cmpV, orderKey, keyLtB, decide_eq_true_eq]
    split_ifs <;> simp_all <;> omega
  | text =>
    obtain ⟨x, hx⟩ := comparableKey_text _ ha
    obtain ⟨y, hy⟩ := comparableKey_text _ hk
    subst hx hy
    simp only [cmpV, orderKey, keyLtB]
    split_ifs with h1 h2
    · simp [bytesLt_asymm x y h1]
    · simp [h2]
    · simp [h2]
  | boolean =>
    obtain ⟨x, hx⟩ := comparableKey_bool _ ha
    obtain ⟨y, hy⟩ := comparableKey_bool _ hk
    subst hx hy
    cases x <;> cases y <;> simp [cmpV, orderKey, keyLtB]
  | date =>
    obtain ⟨x, hx⟩ := comparableKey_date _ ha
    obtain ⟨y, hy⟩ := comparableKey_date _ hk
    subst hx hy
    simp only [cmpV, orderKey, keyLtB, decide_eq_true_eq]
    split_ifs <;> simp_all <;> omega
  | float =>
    obtain ⟨x, hx, hx64, hxn⟩ := comparableKey_float _ ha
    obtain ⟨y, hy, hy64, hyn⟩ := comparableKey_float _ hk
    subst hx hy
    simp only [cmpV, orderKey, keyLtB, decide_eq_true_eq]
    rw [f64lt_eq_decide x y hx64 hy64 hxn hyn, f64lt_eq_decide y x hy64 hx64 hyn hxn]
    split_ifs <;> simp_all <;> omega

theorem entryLess_or (d : DataType) (a b : IndexEntry)
    (ha : comparableKey d a.key = true) (hb : comparableKey d b.key = true)
    (h : entryLess a b = true) :
    keyLtB (orderKey a.key) (orderKey b.key) = true ∨ orderKey a.key = orderKey b.key := by
  cases d with
  | int =>
    obtain ⟨x, hx⟩ := comparableKey_int _ ha
    obtain ⟨y, hy⟩ := comparableKey_int _ hb
    simp only [entryLess, hx, hy, Value.asIntD] at h
    rw [hx, hy]
    simp only [orderKey, keyLtB, decide_eq_true_eq, Sum.inl.injEq]
    by_cases hxy : x = y
    · exact Or.inr hxy
    · rw [if_pos hxy] at h
      exact Or.inl (by simpa using h)
  | text =>
    obtain ⟨x, hx⟩ := comparableKey_text _ ha
    obtain ⟨y, hy⟩ := comparableKey_text _ hb
    simp only [entryLess, hx, hy, Value.asTextD] at h
    rw [hx, hy]
    simp only [orderKey, keyLtB, Sum.inr.injEq]
    by_cases hxy : x = y
    · exact Or.inr hxy
    · rw [if_pos hxy] at h
      exact Or.inl h
  | boolean =>
    obtain ⟨x, hx⟩ := comparableKey_bool _ ha
    obtain ⟨y, hy⟩ := comparableKey_bool _ hb
    simp only [entryLess, hx, hy, Value.asBoolD] at h
    rw [hx, hy]
    simp only [orderKey, keyLtB, decide_eq_true_eq, Sum.inl.injEq]
    by_cases hxy : x = y
    · exact Or.inr (by rw [hxy])
    · rw [if_pos hxy] at h
      cases x <;> cases y <;> simp_all
  | date =>
    obtain ⟨x, hx⟩ := comparableKey_date _ ha
    obtain ⟨y, hy⟩ := comparableKey_date _ hb
    simp only [entryLess, hx, hy, Value.asDateD] at h
    rw [hx, hy]
    simp only [orderKey, keyLtB, decide_eq_true_eq, Sum.inl.injEq]
    by_cases hxy : x = y
    · exact Or.inr hxy
    · rw [if_pos hxy] at h
      exact Or.inl (by simpa using h)
  | float =>
    obtain ⟨x, hx, hx64, hxn⟩ := comparableKey_float _ ha
    obtain ⟨y, hy, hy64, hyn⟩ := comparableKey_float _ hb
    simp only [entryLess, hx, hy, Value.asFloatD] at h
    rw [hx, hy]
    simp only [orderKey, keyLtB, decide_eq_true_eq, Sum.inl.injEq]
    by_cases hxy : f64eq x y = true
    · right
      rw [f64eq_eq_decide x y hx64 hy64 hxn hyn] at hxy
      simpa using hxy
    · have hxy' : f64eq x y = false := by revert hxy; cases f64eq x y <;> simp
      rw [hxy'] at h
      simp only [Bool.not_false, if_true] at h
      left
      rw [f64lt_eq_decide x y hx64 hy64 hxn hyn] at h
      simpa using h

theorem entryLess_pivot (d : DataType) (e : IndexEntry) (key : Value)
    (he : comparableKey d e.key = true) (hk : comparableKey d key = true) :
    entryLess e ⟨key, rid0⟩ = keyLtB (orderKey e.key) (orderKey key) := by
  cases d with
  | int =>
    obtain ⟨x, hx⟩ := comparableKey_int _ he
    obtain ⟨y, hy⟩ := comparableKey_int _ hk
    rw [hx, hy]
    simp only [entryLess, hx, Value.asIntD, orderKey, keyLtB]
    by_cases hxy : x = y
    · rw [if_neg (not_not_intro hxy), ridLess_rid0, hxy]
      simp
    · rw [if_pos hxy]
  | text =>
    obtain ⟨x, hx⟩ := comparableKey_text _ he
    obtain ⟨y, hy⟩ := comparableKey_text _ hk
    rw [hx, hy]
    simp only [entryLess, hx, Value.asTextD, orderKey, keyLtB]
    by_cases hxy : x = y
    · rw [if_neg (not_not_intro hxy), ridLess_rid0, hxy, bytesLt_irrefl]
    · rw [if_pos hxy]
  | boolean =>
    obtain ⟨x, hx⟩ := comparableKey_bool _ he
    obtain ⟨y, hy⟩ := comparableKey_bool _ hk
    rw [hx, hy]
    simp only [entryLess, hx, Value.asBoolD, orderKey, keyLtB]
    by_cases hxy : x = y
    · rw [if_neg (not_not_intro hxy), ridLess_rid0, hxy]
      cases y <;> simp
    · rw [if_pos hxy]
      cases x <;> cases y <;> simp_all
  | date =>
    obtain ⟨x, hx⟩ := comparableKey_date _ he
    obtain ⟨y, hy⟩ := comparableKey_date _ hk
    rw [hx, hy]
    simp only [entryLess, hx, Value.asDateD, orderKey, keyLtB]
    by_cases hxy : x = y
    · rw [if_neg (not_not_intro hxy), ridLess_rid0, hxy]
      simp
    · rw [if_pos hxy]
  | float =>
    obtain ⟨x, hx, hx64, hxn⟩ := comparableKey_float _ he
    obtain ⟨y, hy, hy64, hyn⟩ := comparableKey_float _ hk
    rw [hx, hy]
    simp only [entryLess, hx, Value.asFloatD, orderKey, keyLtB]
    rw [f64lt_eq_decide x y hx64 hy64 hxn hyn, f64eq_eq_decide x y hx64 hy64 hxn hyn]
    by_cases hxy : intOfF64 x = intOfF64 y
    · rw [hxy]
      simp [ridLess_rid0]
    · have h1 : (decide (intOfF64 x = intOfF64 y)) = false := by simpa using hxy
      rw [h1]
      simp

theorem takeWhile_eq_filter_sorted {α : Type} (lt : α → α → Bool) (p : α → Bool) :
    ∀ l : List α, l.Pairwise (fun x y => lt x y = true) →
      (∀ x ∈ l, ∀ y ∈ l, lt x y = true → p y = true → p x = true) →
      l.takeWhile p = l.filter p := by
  intro l
  induction l with
  | nil => intro _ _; rfl
  | cons x xs ih =>
    intro hs hdc
    rw [List.pairwise_cons] at hs
    by_cases hp : p x = true
    · rw [List.takeWhile_cons_of_pos hp, List.filter_cons_of_pos hp]
      rw [ih hs.2 (fun a ha b hb =>
        hdc a (List.mem_cons_of_mem _ ha) b (List.mem_cons_of_mem _ hb))]
    · have hp' : p x = false := by revert hp; cases p x <;> simp
      rw [List.takeWhile_cons_of_neg (by simp [hp']), List.filter_cons_of_neg (by simp [hp'])]
      symm
      rw [List.filter_eq_nil]
      intro y hy hpy
      exact absurd (hdc x (List.mem_cons_self _ _) y (List.mem_cons_of_mem _ hy)
        (hs.1 y hy) hpy) (by simp [hp'])

theorem dropWhile_eq_filter_sorted {α : Type} (lt : α → α → Bool) (q : α → Bool) :
    ∀ l : List α, l.Pairwise (fun x y => lt x y = true) →
      (∀ x ∈ l, ∀ y ∈ l, lt x y = true → q y = true → q x = true) →
      l.dropWhile q = l.filter (fun a => !q a) := by
  intro l
  induction l with
  | nil => intro _ _; rfl
  | cons x xs ih =>
    intro hs hdc
    rw [List.pairwise_cons] at hs
    by_cases hq : q x = true
    · rw [List.dropWhile_cons_of_pos hq, List.filter_cons_of_neg (by simp [hq])]
      exact ih hs.2 (fun a ha b hb =>
        hdc a (List.mem_cons_of_mem _ ha) b (List.mem_cons_of_mem _ hb))
    · have hq' : q x = false := by revert hq; cases q x <;> simp
      rw [List.dropWhile_cons_of_neg (by simp [hq']), List.filter_cons_of_pos (by simp [hq'])]
      rw [List.filter_eq_self.mpr]
      intro y hy
      simp only [Bool.not_eq_true']
      by_contra hqy
      have hqy' : q y = true := by revert hqy; cases q y <;> simp
      exact absurd (hdc x (List.mem_cons_self _ _) y (List.mem_cons_of_mem _ hy)
        (hs.1 y hy) hqy') (by simp [hq'])

theorem relOp_lt_eq (a k : Value) : relOp "<" a k = decide (cmpV a k < 0) := rfl

theorem relOp_le_eq (a k : Value) : relOp "<=" a k = decide (cmpV a k ≤ 0) := rfl

theorem relOp_gt_eq (a k : Value) : relOp ">" a k = decide (0 < cmpV a k) := rfl

theorem relOp_ge_eq (a k : Value) : relOp ">=" a k = decide (0 ≤ cmpV a k) := rfl

theorem rangeSearch_lt_eq (idx : Index) (key : Value) (h : ¬ key.kind ≠ idx.columnType) :
    idx.rangeSearch "<" key =
      .ok ((idx.entries.takeWhile fun e => cmpV e.key key < 0).map (·.rowID)) := by
  unfold Index.rangeSearch
  rw [if_neg h]
  rfl

theorem rangeSearch_le_eq (idx : Index) (key : Value) (h : ¬ key.kind ≠ idx.columnType) :
    idx.rangeSearch "<=" key =
      .ok ((idx.entries.takeWhile fun e =>
        cmpV e.key key < 0 ∨ cmpV e.key key = 0).map (·.rowID)) := by
  unfold Index.rangeSearch
  rw [if_neg h]
  rfl

theorem rangeSearch_gt_eq (idx : Index) (key : Value) (h : ¬ key.kind ≠ idx.columnType) :
    idx.rangeSearch ">" key =
      .ok (((ascendGE ⟨key, rid0⟩ idx.entries).filter fun e =>
        cmpV e.key key > 0).map (·.rowID)) := by
  unfold Index.rangeSearch
  rw [if_neg h]
  rfl

theorem rangeSearch_ge_eq (idx : Index) (key : Value) (h : ¬ key.kind ≠ idx.columnType) :
    idx.rangeSearch ">=" key =
      .ok ((ascendGE ⟨key, rid0⟩ idx.entries).map (·.rowID)) := by
  unfold Index.rangeSearch
  rw [if_neg h]
  rfl

/-- **C7** — for every index whose entry list is sorted by the B-Tree
order, every operator in `<, <=, >, >=` and every key of the declared
(comparable) kind, `RangeSearch` returns exactly the RowIDs of the
entries whose key stands in relation `op` to the search key, in the
stored ascending `(key, RowID)` order. -/
theorem rangeSearch_returns_filter (idx : Index) (operator : String) (key : Value)
    (hop : operator = "<" ∨ operator = "<=" ∨ operator = ">" ∨ operator = ">=")
    (hk : comparableKey idx.columnType key = true)
    (he : ∀ e ∈ idx.entries, comparableKey idx.columnType e.key = true)
    (hs : idx.entries.Pairwise (fun a b => entryLess a b = true)) :
    idx.rangeSearch operator key =
      .ok ((idx.entries.filter fun e => relOp operator e.key key).map (·.rowID)) ∧
    (idx.entries.filter fun e => relOp operator e.key key).Pairwise
      (fun a b => entryLess a b = true) := by
  have hkind : ¬ key.kind ≠ idx.columnType := by
    unfold comparableKey at hk
    have h1 : decide (key.kind = idx.columnType) = true := by
      cases hand : decide (key.kind = idx.columnType)
      · rw [hand] at hk; simp at hk
      · rfl
    exact not_not_intro (of_decide_eq_true h1)
  have hdcq : ∀ x ∈ idx.entries, ∀ y ∈ idx.entries, entryLess x y = true →
      entryLess y ⟨key, rid0⟩ = true → entryLess x ⟨key, rid0⟩ = true := by
    intro a ha' b hb' hab hqb
    rw [entryLess_pivot idx.columnType b key (he b hb') hk] at hqb
    rw [entryLess_pivot idx.columnType a key (he a ha') hk]
    rcases entryLess_or idx.columnType a b (he a ha') (he b hb') hab with h | h
    · exact keyLtB_trans _ _ _ h hqb
    · rw [h]; exact hqb
  refine ⟨?_, hs.filter _⟩
  rcases hop with hop | hop | hop | hop <;> subst hop
  · rw [rangeSearch_lt_eq idx key hkind]
    rw [takeWhile_eq_filter_sorted entryLess
      (fun e => decide (cmpV e.key key < 0)) idx.entries hs ?_]
    · refine congrArg Except.ok (congrArg (List.map _) (List.filter_congr ?_))
      intro e he'
      rw [relOp_lt_eq]
    · intro a ha' b hb' hab hpb
      simp only [decide_eq_true_eq] at hpb ⊢
      rw [cmpV_lt_iff idx.columnType b.key key (he b hb') hk] at hpb
      rw [cmpV_lt_iff idx.columnType a.key key (he a ha') hk]
      rcases entryLess_or idx.columnType a b (he a ha') (he b hb') hab with h | h
      · exact keyLtB_trans _ _ _ h hpb
      · rw [h]; exact hpb
  · rw [rangeSearch_le_eq idx key hkind]
    rw [takeWhile_eq_filter_sorted entryLess
      (fun e => decide (cmpV e.key key < 0 ∨ cmpV e.key key = 0)) idx.entries hs ?_]
    · refine congrArg Except.ok (congrArg (List.map _) (List.filter_congr ?_))
      intro e he'
      rw [relOp_le_eq]
      exact decide_eq_decide.mpr (by omega)
    · intro a ha' b hb' hab hpb
      simp only [decide_eq_true_eq] at hpb ⊢
      rcases entryLess_or idx.columnType a b (he a ha') (he b hb') hab with h | h
      · rcases hpb with hpb | hpb
        · left
          rw [cmpV_lt_iff idx.columnType b.key key (he b hb') hk] at hpb
          rw [cmpV_lt_iff idx.columnType a.key key (he a ha') hk]
          exact keyLtB_trans _ _ _ h hpb
        · left
          rw [cmpV_eq_iff idx.columnType b.key key (he b hb') hk] at hpb
          rw [cmpV_lt_iff idx.columnType a.key key (he a ha') hk]
          rw [← hpb]
          exact h
      · rcases hpb with hpb | hpb
        · left
          rw [cmpV_lt_iff idx.columnType b.key key (he b hb') hk] at hpb
          rw [cmpV_lt_iff idx.columnType a.key key (he a ha') hk]
          rw [h]
          exact hpb
        · right
          rw [cmpV_eq_iff idx.columnType b.key key (he b hb') hk] at hpb
          rw [cmpV_eq_iff idx.columnType a.key key (he a ha') hk]
          rw [h]
          exact hpb
  · rw [rangeSearch_gt_eq idx key hkind]
    unfold ascendGE
    rw [dropWhile_eq_filter_sorted entryLess
      (fun x => entryLess x ⟨key, rid0⟩) idx.entries hs hdcq]
    rw [List.filter_filter]
    refine congrArg Except.ok (congrArg (List.map _) (List.filter_congr ?_))
    intro e he'
    rw [relOp_gt_eq, entryLess_pivot idx.columnType e key (he e he') hk]
    have hiff := cmpV_lt_iff idx.columnType e.key key (he e he') hk
    by_cases hc : 0 < cmpV e.key key
    · have hnl : keyLtB (orderKey e.key) (orderKey key) = false := by
        by_contra hx
        have hx' : keyLtB (orderKey e.key) (orderKey key) = true := by
          revert hx; cases keyLtB (orderKey e.key) (orderKey key) <;> simp
        have := hiff.mpr hx'
        omega
      rw [hnl]
      simp [hc]
    · simp [hc]
  · rw [rangeSearch_ge_eq idx key hkind]
    unfold ascendGE
    rw [dropWhile_eq_filter_sorted entryLess
      (fun x => entryLess x ⟨key, rid0⟩) idx.entries hs hdcq]
    refine congrArg Except.ok (congrArg (List.map _) (List.filter_congr ?_))
    intro e he'
    rw [relOp_ge_eq, entryLess_pivot idx.columnType e key (he e he') hk]
    have hiff := cmpV_lt_iff idx.columnType e.key key (he e he') hk
    cases hlt : keyLtB (orderKey e.key) (orderKey key)
    · have h1 : ¬ cmpV e.key key < 0 := fun hc => by simp [hiff.mp hc] at hlt
      have h2 : (0:Int) ≤ cmpV e.key key := by omega
      simp [h2]
    · have h2 := hiff.mpr hlt
      simp [show ¬ (0:Int) ≤ cmpV e.key key by omega]

theorem rangeSearch_returns_filter_witness :
    idxC7.rangeSearch ">" (.intV 2) =
      .ok ((idxC7.entries.filter fun e => relOp ">" e.key (.intV 2)).map (·.rowID)) ∧
    (idxC7.entries.filter fun e => relOp ">" e.key (.intV 2)).Pairwise
      (fun a b => entryLess a b = true) :=
  rangeSearch_returns_filter idxC7 ">" (.intV 2)
    (Or.inr (Or.inr (Or.inl rfl))) (by decide) (by decide) (by decide)

end GoDB
